import Mathlib

/-!
Verification of the `w32` Lagrange lattice-basis-reduction backend.

The program reduces the 2-dimensional lattice spanned by (n, 0) and (k, 1)
for 32-bit limb arrays `k`, `n` (little-endian), producing a short vector
(c0, c1) with k·c1 ≡ c0 (mod n).  We shallowly embed the backend:

* machine words are `Nat` below 2^32, wrap-around is explicit `% 2^32`;
* a fixed-width big integer is a `List Nat` of limbs, least significant
  first; its unsigned value is `val`, its two's-complement value is `ival`;
* the Rust `loop`s become fuel-indexed recursions returning `Option`
  (`none` = the fuel ran out before the loop returned);
* panics of the dispatch layer become `Except.error` values.

Word-level primitives (`addcarry_u32`, `subborrow_u32`, `umull_add`,
`umull_add2`, `sgnw`, `lzcnt`) follow `src/backend/w32/mod.rs`; the big
integer operations and the reduction engine follow
`src/backend/w32/lagrange.rs`.
-/

/-- `addcarry_u32 x y c`: 32-bit add with carry, `(sum, carry_out)`. -/
def addcarry_u32 (x y c : Nat) : Nat × Nat :=
  ((x + y + c) % 2^32, (x + y + c) / 2^32)

/-- `subborrow_u32 x y c`: 32-bit subtract with borrow, `(diff, borrow_out)`. -/
def subborrow_u32 (x y c : Nat) : Nat × Nat :=
  ((2^32 + x - (y + c)) % 2^32, if x < y + c then 1 else 0)

/-- `umull_add x y z = x*y + z` over 64 bits, split `(lo, hi)`. -/
def umull_add (x y z : Nat) : Nat × Nat :=
  ((x * y + z) % 2^32, (x * y + z) / 2^32)

/-- `umull_add2 x y z1 z2 = x*y + z1 + z2` over 64 bits, split `(lo, hi)`. -/
def umull_add2 (x y z1 z2 : Nat) : Nat × Nat :=
  ((x * y + z1 + z2) % 2^32, (x * y + z1 + z2) / 2^32)

/-- `sgnw x`: all-ones if the sign bit of the 32-bit word `x` is set, else 0. -/
def sgnw (x : Nat) : Nat := if 2^31 ≤ x then 2^32 - 1 else 0

/-- 32-bit wrapping subtraction (`u32::wrapping_sub`). -/
def wsub32 (x y : Nat) : Nat := (2^32 + x - y) % 2^32

/-- One range-halving stage of the branch-free `lzcnt` fallback:
`let m = sgnw((x >> k).wrapping_sub(1)); (m & k, (x >> k) ^ (m & (x ^ (x >> k))))`. -/
def lzStep (k x : Nat) : Nat × Nat :=
  let m := sgnw (wsub32 (x >>> k) 1)
  (m &&& k, (x >>> k) ^^^ (m &&& (x ^^^ (x >>> k))))

/-- The branch-free fallback `lzcnt` of `mod.rs` (platforms without a
constant-time hardware leading-zero count): four range-halving stages
driven by sign masks, then a final two-bit correction. -/
def lzcnt (x : Nat) : Nat :=
  let p1 := lzStep 16 x
  let p2 := lzStep 8 p1.2
  let p3 := lzStep 4 p2.2
  let p4 := lzStep 2 p3.2
  let s := ((p1.1 ||| p2.1) ||| p3.1) ||| p4.1
  let x := p4.2
  (s + (wsub32 2 x &&& (wsub32 x 3 >>> 2))) % 2^32

/-- Bit size (number of binary digits) by fuel-indexed halving; with
`fuel ≥ 32` it computes the bit size of any 32-bit word. -/
def sizeAux : Nat → Nat → Nat
  | 0, _ => 0
  | fuel + 1, n => if n = 0 then 0 else sizeAux fuel (n / 2) + 1

/-- Reference 32-bit leading-zero count (`u32::leading_zeros`):
32 minus the bit size of the value. -/
def leading_zeros (x : Nat) : Nat := 32 - sizeAux 32 x

/-- Unsigned value of a little-endian limb array. -/
def val : List Nat → Nat
  | [] => 0
  | a :: as => a + 2^32 * val as

/-- All limbs are genuine 32-bit words. -/
def Limbs (a : List Nat) : Prop := ∀ x ∈ a, x < 2^32

/-- Most significant limb (`a[N-1]`). -/
def topLimb (a : List Nat) : Nat := a.reverse.headD 0

/-- `is_negative`: top bit of the last limb. -/
def is_negative (a : List Nat) : Bool := decide (2^31 ≤ topLimb a)

/-- Signed (two's-complement) value of a limb array. -/
def ival (a : List Nat) : ℤ :=
  if is_negative a then (val a : ℤ) - 2^(32 * a.length) else (val a : ℤ)

/-- Limb-wise add-with-carry chain (carry out of the top limb is dropped,
as in the fixed-width `set_add_shifted` loops). -/
def addChain : Nat → List Nat → List Nat → List Nat
  | _, [], _ => []
  | _, a :: as, [] => a :: as
  | c, a :: as, b :: bs =>
      (addcarry_u32 a b c).1 :: addChain (addcarry_u32 a b c).2 as bs

/-- Limb-wise subtract-with-borrow chain (borrow out of the top limb is
dropped). -/
def subChain : Nat → List Nat → List Nat → List Nat
  | _, [], _ => []
  | _, a :: as, [] => a :: as
  | c, a :: as, b :: bs =>
      (subborrow_u32 a b c).1 :: subChain (subborrow_u32 a b c).2 as bs

/-- Final borrow of the full subtract chain (`lt` reads only this). -/
def borrowOut : Nat → List Nat → List Nat → Nat
  | c, [], _ => c
  | c, _ :: _, [] => c
  | c, a :: as, b :: bs => borrowOut (subborrow_u32 a b c).2 as bs

/-- `lt self rhs`: `self < rhs` for nonnegative values — a full
subtract-with-borrow chain, reading only the final borrow. -/
def lt (a b : List Nat) : Bool := borrowOut 0 a b != 0

/-- The sub-word shifted limb stream: limb `i` of `rhs << t` is
`(rhs[i-1] >> (32-t)) | (rhs[i] << t)`; `prev` is `rhs[i-1]` (0 at the
bottom). Used by the `0 < t < 32` paths of the shifted add/subtract. -/
def shiftCarry (t : Nat) : Nat → List Nat → List Nat
  | _, [] => []
  | prev, b :: bs =>
      ((prev >>> (32 - t)) ||| (b <<< t) % 2^32) :: shiftCarry t b bs

/-- Limbs of `(b << t) mod 2^(32·len b)` for a sub-word shift `0 < t < 32`. -/
def shiftLimbs (t : Nat) (b : List Nat) : List Nat := shiftCarry t 0 b

/-- `set_add_shifted a b s`: `a + (b << s)` at the fixed width of `a`
(truncating), with the four source paths: `s = 0`, `0 < s < 32`,
word-aligned `s ≥ 32`, and unaligned `s ≥ 32`; a shift reaching past the
width is a no-op. -/
def set_add_shifted (a b : List Nat) (s : Nat) : List Nat :=
  if s < 32 then
    if s = 0 then addChain 0 a b
    else addChain 0 a (shiftLimbs s b)
  else
    let j := s >>> 5
    if a.length ≤ j then a
    else
      let t := s &&& 31
      if t = 0 then
        a.take j ++ addChain 0 (a.drop j) (b.take (a.length - j))
      else
        a.take j ++ addChain 0 (a.drop j) ((shiftLimbs t b).take (a.length - j))

/-- `set_sub_shifted a b s`: `a - (b << s)` at the fixed width of `a`
(truncating), mirroring `set_add_shifted`. -/
def set_sub_shifted (a b : List Nat) (s : Nat) : List Nat :=
  if s < 32 then
    if s = 0 then subChain 0 a b
    else subChain 0 a (shiftLimbs s b)
  else
    let j := s >>> 5
    if a.length ≤ j then a
    else
      let t := s &&& 31
      if t = 0 then
        a.take j ++ subChain 0 (a.drop j) (b.take (a.length - j))
      else
        a.take j ++ subChain 0 (a.drop j) ((shiftLimbs t b).take (a.length - j))

/-- `bitlength` scan: the limbs are presented most significant first
(`rest.length` is the limb index); every limb is XORed with the sign mask
`m` of the top limb, and the first nonzero canonicalized limb decides. -/
def bitlengthAux (m : Nat) : List Nat → Nat
  | [] => 0
  | w :: rest =>
      if w ^^^ m ≠ 0 then 32 * rest.length + (32 - leading_zeros (w ^^^ m))
      else bitlengthAux m rest

/-- `bitlength`: sign-canonicalized magnitude bit length of a fixed-width
signed value. -/
def bitlength (a : List Nat) : Nat :=
  bitlengthAux (sgnw (topLimb a)) a.reverse

/-- `ltnw a s`: `a < 2^(32·s - 1)` for nonnegative `a` — limbs from `s` on
are zero and limb `s-1` has a clear top bit. -/
def ltnw (a : List Nat) (s : Nat) : Bool :=
  ((a.drop s).all fun x => x == 0) && decide (a.getD (s - 1) 0 < 2^31)

/-- One inner row of the schoolbook product: adds `ai * b` into the limbs
`d` (starting at the row offset), propagating the 64-bit carry; when `b`
is exhausted the carry overwrites the next limb; when `d` is exhausted the
row is cut off (the `i + j >= N3` break). -/
def mulRow (ai : Nat) : List Nat → List Nat → Nat → List Nat
  | _, [], _ => []
  | [], _ :: ds, cc => cc :: ds
  | b :: bs, d :: ds, cc =>
      (umull_add2 ai b d cc).1 :: mulRow ai bs ds (umull_add2 ai b d cc).2

/-- Outer loop of the schoolbook product: row `i` adds `a[i]·b` into the
accumulator at limb offset `i`. -/
def umulAux (b : List Nat) : List Nat → List Nat → Nat → List Nat
  | [], d, _ => d
  | ai :: as, d, i => umulAux b as (d.take i ++ mulRow ai b (d.drop i) 0) (i + 1)

/-- `umul a b` of `define_lagrange`: schoolbook product of two nonnegative
operands, accumulated into `n3` limbs. -/
def umul (n3 : Nat) (a b : List Nat) : List Nat :=
  umulAux b a (List.replicate n3 0) 0

/-- State of the reduction engine: the truncated coordinates `u0 u1 v0 v1`
(width N0), the Gram values `nu nv sp` (width N3, then N2 after the
shrink), and the global first-iteration flag. -/
structure LagState where
  u0 : List Nat
  u1 : List Nat
  v0 : List Nat
  v1 : List Nat
  nu : List Nat
  nv : List Nat
  sp : List Nat
  first : Bool
deriving DecidableEq, Repr

/-- Step 1 of both loops: if `nu < nv`, swap `(u, nu)` with `(v, nv)`. -/
def swapUV (st : LagState) : LagState :=
  if lt st.nu st.nv then
    { u0 := st.v0, u1 := st.v1, v0 := st.u0, v1 := st.u1,
      nu := st.nv, nv := st.nu, sp := st.sp, first := st.first }
  else st

/-- Branch selector of the size-reduction step:
`if first || !sp.is_negative()` chooses the subtract branch. -/
def branchIsSub (first : Bool) (sp : List Nat) : Bool := first || !(is_negative sp)

/-- The shared size-reduction step of both phases: subtract (or add)
`v·2^s` from `u`, update `nu` and `sp` accordingly, clear `first` on the
subtract branch. -/
def reduceStep (s : Nat) (st : LagState) : LagState :=
  if branchIsSub st.first st.sp then
    { u0 := set_sub_shifted st.u0 st.v0 s,
      u1 := set_sub_shifted st.u1 st.v1 s,
      v0 := st.v0, v1 := st.v1,
      nu := set_sub_shifted (set_add_shifted st.nu st.nv (2 * s)) st.sp (s + 1),
      nv := st.nv,
      sp := set_sub_shifted st.sp st.nv s,
      first := false }
  else
    { u0 := set_add_shifted st.u0 st.v0 s,
      u1 := set_add_shifted st.u1 st.v1 s,
      v0 := st.v0, v1 := st.v1,
      nu := set_add_shifted (set_add_shifted st.nu st.nv (2 * s)) st.sp (s + 1),
      nv := st.nv,
      sp := set_add_shifted st.sp st.nv s,
      first := st.first }

/-- Outcome of one phase-1 iteration: return `v`, break to phase 2, or
continue looping. -/
inductive P1Out where
  | ret (v0 v1 : List Nat)
  | brk (st : LagState)
  | cont (st : LagState)
deriving DecidableEq, Repr

/-- One iteration of the first loop: swap; break to phase 2 when `nu` fits
below width N2 (`n2` limbs); return `v` when `nv`'s bit length reaches
`max_bitlen`; otherwise do a size-reduction step with
`s = max(0, bitlength sp - bitlength nv)` (the source computes the clamp
by masking with the sign of the wrapping difference; the bit lengths are
far below 2^31, so it equals truncated subtraction). -/
def phase1Step (n2 max_bitlen : Nat) (st : LagState) : P1Out :=
  let st := swapUV st
  if ltnw st.nu n2 then .brk st
  else
    let bl_nv := bitlength st.nv
    if bl_nv ≤ max_bitlen then .ret st.v0 st.v1
    else
      let bl_sp := bitlength st.sp
      .cont (reduceStep (bl_sp - bl_nv) st)

/-- The first loop, with fuel; `none` means the fuel ran out. -/
def phase1Run (n2 max_bitlen : Nat) : Nat → LagState → Option (Sum (List Nat × List Nat) LagState)
  | 0, _ => none
  | fuel + 1, st =>
      match phase1Step n2 max_bitlen st with
      | .ret a b => some (Sum.inl (a, b))
      | .brk st => some (Sum.inr st)
      | .cont st => phase1Run n2 max_bitlen fuel st

/-- The one-time precision shrink: truncate `nu`, `nv`, `sp` to the low
`n2` limbs. -/
def shrink (n2 : Nat) (st : LagState) : LagState :=
  { st with nu := st.nu.take n2, nv := st.nv.take n2, sp := st.sp.take n2 }

/-- Outcome of one phase-2 iteration. -/
inductive P2Out where
  | ret (v0 v1 : List Nat)
  | cont (st : LagState) (last_bl_sp stuck : Nat)
deriving DecidableEq, Repr

/-- One iteration of the second loop: swap; return `v` on success; then the
stall guard on `bitlength sp` (increment `stuck` when not strictly
smaller than `last_bl_sp`, return when strictly larger or `stuck`
exceeds 3, record and reset when strictly smaller); otherwise a
size-reduction step. -/
def phase2Step (max_bitlen : Nat) (st : LagState) (last_bl_sp stuck : Nat) : P2Out :=
  let st := swapUV st
  let bl_nv := bitlength st.nv
  if bl_nv ≤ max_bitlen then .ret st.v0 st.v1
  else
    let bl_sp := bitlength st.sp
    if last_bl_sp ≤ bl_sp then
      if last_bl_sp < bl_sp || stuck + 1 > 3 then .ret st.v0 st.v1
      else .cont (reduceStep (bl_sp - bl_nv) st) last_bl_sp (stuck + 1)
    else .cont (reduceStep (bl_sp - bl_nv) st) bl_sp 0

/-- The second loop, with fuel. -/
def phase2Run (max_bitlen : Nat) : Nat → LagState → Nat → Nat → Option (List Nat × List Nat)
  | 0, _, _, _ => none
  | fuel + 1, st, last_bl_sp, stuck =>
      match phase2Step max_bitlen st last_bl_sp stuck with
      | .ret a b => some (a, b)
      | .cont st last stuck => phase2Run max_bitlen fuel st last stuck

/-- Engine initialization: `u = (n, 0)`, `v = (k, 1)` truncated to `n0`
limbs; `nu = n²`, `nv = k² + 1`, `sp = n·k` at `n3` limbs; `first` set. -/
def initState (n0 n3 : Nat) (k n : List Nat) : LagState :=
  { u0 := n.take n0, u1 := List.replicate n0 0,
    v0 := k.take n0, v1 := 1 :: List.replicate (n0 - 1) 0,
    nu := umul n3 n n,
    nv := addChain 0 (umul n3 k k) (1 :: List.replicate (n3 - 1) 0),
    sp := umul n3 n k,
    first := true }

/-- The full engine of `define_lagrange`, generic over the limb counts
`n0` (output), `n2` (shrunk Gram), `n3` (full Gram); the operand width N1
is the length of `k` and `n`. -/
def lagrangeEngine (n0 n2 n3 fuel : Nat) (k n : List Nat) (max_bitlen : Nat) :
    Option (List Nat × List Nat) :=
  match phase1Run n2 max_bitlen fuel (initState n0 n3 k n) with
  | none => none
  | some (Sum.inl r) => some r
  | some (Sum.inr st) =>
      let st := shrink n2 st
      phase2Run max_bitlen fuel st (bitlength st.sp) 0

/-- `lagrange256_vartime`: widths (128, 256, 384, 512) = (4, 8, 12, 16) limbs. -/
def lagrange256_vartime (fuel : Nat) (k n : List Nat) (max_bitlen : Nat) :
    Option (List Nat × List Nat) := lagrangeEngine 4 12 16 fuel k n max_bitlen

/-- `lagrange320_vartime`: widths (192, 320, 448, 640) = (6, 10, 14, 20) limbs. -/
def lagrange320_vartime (fuel : Nat) (k n : List Nat) (max_bitlen : Nat) :
    Option (List Nat × List Nat) := lagrangeEngine 6 14 20 fuel k n max_bitlen

/-- `lagrange384_vartime`: widths (192, 384, 512, 768) = (6, 12, 16, 24) limbs. -/
def lagrange384_vartime (fuel : Nat) (k n : List Nat) (max_bitlen : Nat) :
    Option (List Nat × List Nat) := lagrangeEngine 6 16 24 fuel k n max_bitlen

/-- `lagrange448_vartime`: widths (256, 448, 640, 896) = (8, 14, 20, 28) limbs. -/
def lagrange448_vartime (fuel : Nat) (k n : List Nat) (max_bitlen : Nat) :
    Option (List Nat × List Nat) := lagrangeEngine 8 20 28 fuel k n max_bitlen

/-- `lagrange512_vartime`: widths (256, 512, 768, 1024) = (8, 16, 24, 32) limbs. -/
def lagrange512_vartime (fuel : Nat) (k n : List Nat) (max_bitlen : Nat) :
    Option (List Nat × List Nat) := lagrangeEngine 8 24 32 fuel k n max_bitlen

/-- Faults of the dispatch layer: the `unimplemented!()` arms, slice
panics (`copy_from_slice` / out-of-range slicing), and fuel exhaustion
standing in for a loop that has not returned. -/
inductive Fault where
  | unimplemented
  | panicked
  | outOfFuel
deriving DecidableEq, Repr

/-- Copy the engine output into caller buffers of lengths `c0len`, `c1len`
(`c0.copy_from_slice(&v0[..c0.len()])`): slicing past the engine output
panics, otherwise the low limbs are copied. -/
def copyOut (c0len c1len : Nat) : Option (List Nat × List Nat) →
    Except Fault (List Nat × List Nat)
  | none => .error .outOfFuel
  | some (v0, v1) =>
      if v0.length < c0len || v1.length < c1len then .error .panicked
      else .ok (v0.take c0len, v1.take c1len)

/-- The dispatch layer `lagrange_vartime`: reject lengths outside [8, 16]
(`unimplemented!()`), zero-pad `k` and `n` to 16 limbs (a `k` longer than
the working buffer panics in `copy_from_slice`), round the working length
up to even, and run the matching engine instantiation. -/
def lagrange_vartime (fuel : Nat) (k n : List Nat) (max_bitlen c0len c1len : Nat) :
    Except Fault (List Nat × List Nat) :=
  if n.length < 8 || 16 < n.length then .error .unimplemented
  else if 16 < k.length then .error .panicked
  else
    let nk := k ++ List.replicate (16 - k.length) 0
    let nn := n ++ List.replicate (16 - n.length) 0
    let nlen := 2 * ((n.length + 1) / 2)
    match nlen with
    | 8 => copyOut c0len c1len (lagrange256_vartime fuel (nk.take 8) (nn.take 8) max_bitlen)
    | 10 => copyOut c0len c1len (lagrange320_vartime fuel (nk.take 10) (nn.take 10) max_bitlen)
    | 12 => copyOut c0len c1len (lagrange384_vartime fuel (nk.take 12) (nn.take 12) max_bitlen)
    | 14 => copyOut c0len c1len (lagrange448_vartime fuel (nk.take 14) (nn.take 14) max_bitlen)
    | 16 => copyOut c0len c1len (lagrange512_vartime fuel (nk.take 16) (nn.take 16) max_bitlen)
    | _ => .error .unimplemented

/-- The coordinate width N0 (in limbs) of the engine the dispatch selects
for an `n` of length `len`: the arms of `lagrange_vartime` paired with the
`n0` of the engine each runs (4 for `lagrange256`, 6 for `lagrange320` and
`lagrange384`, 8 for `lagrange448` and `lagrange512`). -/
def engineCoordWidth (len : Nat) : Nat :=
  match 2 * ((len + 1) / 2) with
  | 8 => 4
  | 10 => 6
  | 12 => 6
  | 14 => 8
  | 16 => 8
  | _ => 0

/-- Ghost (exact, unbounded) coordinates of the basis vectors `u`, `v`,
tracked in ℤ alongside the truncated machine coordinates. -/
structure GhostState where
  gu0 : ℤ
  gu1 : ℤ
  gv0 : ℤ
  gv1 : ℤ
deriving DecidableEq, Repr

/-- Ghost counterpart of the conditional swap (driven by the machine
state's `nu < nv` test). -/
def ghostSwapUV (st : LagState) (g : GhostState) : GhostState :=
  if lt st.nu st.nv then ⟨g.gv0, g.gv1, g.gu0, g.gu1⟩ else g

/-- Ghost counterpart of the size-reduction step: `u ← u ∓ 2^s·v` exactly. -/
def ghostReduce (s : Nat) (isSub : Bool) (g : GhostState) : GhostState :=
  if isSub then ⟨g.gu0 - 2^s * g.gv0, g.gu1 - 2^s * g.gv1, g.gv0, g.gv1⟩
  else ⟨g.gu0 + 2^s * g.gv0, g.gu1 + 2^s * g.gv1, g.gv0, g.gv1⟩

/-- The stored coordinates agree with the ghost coordinates modulo the
output width `2^(32·n0)`. -/
def coordInv (n0 : Nat) (st : LagState) (g : GhostState) : Prop :=
  (val st.u0 : ℤ) ≡ g.gu0 [ZMOD (2 : ℤ)^(32 * n0)] ∧
  (val st.u1 : ℤ) ≡ g.gu1 [ZMOD (2 : ℤ)^(32 * n0)] ∧
  (val st.v0 : ℤ) ≡ g.gv0 [ZMOD (2 : ℤ)^(32 * n0)] ∧
  (val st.v1 : ℤ) ≡ g.gv1 [ZMOD (2 : ℤ)^(32 * n0)]

/-- The limb array holding `2^m` at width `N` (test vector for the
`bitlength` specification). -/
def pow2Limbs (N m : Nat) : List Nat :=
  List.replicate (m / 32) 0 ++ 2^(m % 32) :: List.replicate (N - m / 32 - 1) 0

/-- Fixed coordinate widths of an engine state (`n0` limbs each). -/
def CoordLen (n0 : Nat) (st : LagState) : Prop :=
  st.u0.length = n0 ∧ st.u1.length = n0 ∧ st.v0.length = n0 ∧ st.v1.length = n0

/-- All coordinate limbs of an engine state are 32-bit words. -/
def CoordLimbs (st : LagState) : Prop :=
  Limbs st.u0 ∧ Limbs st.u1 ∧ Limbs st.v0 ∧ Limbs st.v1

/-- The input `k = 0` (8 limbs) of the non-terminating run. -/
def divergeK : List Nat := List.replicate 8 0

/-- The input `n = 2^192` (8 limbs) of the non-terminating run. -/
def divergeN : List Nat := [0, 0, 0, 0, 0, 0, 1, 0]

/-- Phase-1 state of the 256-bit engine on `(divergeK, divergeN, max_bitlen = 0)`
after one iteration; the loop oscillates between this state and
`lagDivergeB` forever. -/
def lagDivergeA : LagState :=
  { u0 := List.replicate 4 0, u1 := List.replicate 4 (2^32 - 1),
    v0 := List.replicate 4 0, v1 := 1 :: List.replicate 3 0,
    nu := [1, 0, 0, 0, 0, 0, 0, 0, 0, 0, 0, 0, 1, 0, 0, 0],
    nv := 1 :: List.replicate 15 0,
    sp := List.replicate 16 (2^32 - 1), first := false }

/-- The second state of the oscillation. -/
def lagDivergeB : LagState :=
  { u0 := List.replicate 4 0, u1 := List.replicate 4 0,
    v0 := List.replicate 4 0, v1 := 1 :: List.replicate 3 0,
    nu := [0, 0, 0, 0, 0, 0, 0, 0, 0, 0, 0, 0, 1, 0, 0, 0],
    nv := 1 :: List.replicate 15 0,
    sp := List.replicate 16 0, first := false }

/-! ## Value semantics of the limb toolkit -/

theorem val_cons (a : Nat) (as : List Nat) : val (a :: as) = a + 2^32 * val as := rfl

theorem pow_split (n : Nat) : (2:Nat)^(32 * (n + 1)) = 2^32 * 2^(32 * n) := by
  rw [← pow_add]; ring_nf

theorem limbs_cons {x : Nat} {xs : List Nat} (h : Limbs (x :: xs)) :
    x < 2^32 ∧ Limbs xs :=
  ⟨h x (by simp), fun y hy => h y (by simp [hy])⟩

theorem val_lt {a : List Nat} (ha : Limbs a) : val a < 2^(32 * a.length) := by
  induction a with
  | nil => simp [val]
  | cons x xs ih =>
      obtain ⟨hx, hxs⟩ := limbs_cons ha
      have h := ih hxs
      rw [val_cons, List.length_cons, pow_split]
      calc x + 2^32 * val xs < 2^32 + 2^32 * val xs := by omega
        _ = 2^32 * (val xs + 1) := by ring
        _ ≤ 2^32 * 2^(32 * xs.length) := Nat.mul_le_mul_left _ h

theorem val_append (a b : List Nat) :
    val (a ++ b) = val a + 2^(32 * a.length) * val b := by
  induction a with
  | nil => simp [val]
  | cons x xs ih =>
      rw [List.cons_append, val_cons, val_cons, ih, List.length_cons, pow_split]
      ring

theorem val_replicate_zero (n : Nat) : val (List.replicate n 0) = 0 := by
  induction n with
  | zero => rfl
  | succ m ih => simp [List.replicate, val, ih]

/-- The key splitting identity: prepending a low part below a modulus. -/
theorem add_mul_mod_split {A z M K : Nat} (hA : A < M) :
    (A + M * z) % (M * K) = A + M * (z % K) := by
  rcases Nat.eq_zero_or_pos K with hK | hK
  · subst hK; simp
  · conv_lhs => rw [← Nat.div_add_mod z K]
    have e : A + M * (K * (z / K) + z % K)
        = A + M * (z % K) + (M * K) * (z / K) := by ring
    rw [e, Nat.add_mul_mod_self_left]
    apply Nat.mod_eq_of_lt
    have hr : z % K + 1 ≤ K := Nat.mod_lt _ hK
    calc A + M * (z % K) < M + M * (z % K) := by omega
      _ = M * (z % K + 1) := by ring
      _ ≤ M * K := Nat.mul_le_mul_left _ hr

theorem val_take {a : List Nat} (ha : Limbs a) (n : Nat) :
    val (a.take n) = val a % 2^(32 * n) ∨ a.length < n := by
  induction a generalizing n with
  | nil => cases n with
    | zero => left; simp [val]
    | succ m => right; simp
  | cons x xs ih =>
      obtain ⟨hx, hxs⟩ := limbs_cons ha
      cases n with
      | zero => left; simp [val, Nat.mod_one]
      | succ m =>
          rcases ih hxs m with h | h
          · left
            rw [List.take_succ_cons, val_cons, val_cons, h, pow_split,
              add_mul_mod_split hx]
          · right; simpa using Nat.succ_lt_succ h

theorem val_take_le {a : List Nat} (ha : Limbs a) {n : Nat} (hn : n ≤ a.length) :
    val (a.take n) = val a % 2^(32 * n) := by
  rcases val_take ha n with h | h
  · exact h
  · omega

theorem val_drop {a : List Nat} (ha : Limbs a) (n : Nat) :
    val (a.drop n) = val a / 2^(32 * n) := by
  induction a generalizing n with
  | nil => simp [val]
  | cons x xs ih =>
      obtain ⟨hx, hxs⟩ := limbs_cons ha
      cases n with
      | zero => simp
      | succ m =>
          rw [List.drop_succ_cons, ih hxs m, val_cons, pow_split,
            ← Nat.div_div_eq_div_mul, Nat.add_mul_div_left _ _
            (Nat.pos_pow_of_pos 32 (by norm_num)), Nat.div_eq_of_lt hx,
            Nat.zero_add]

theorem limbs_take {a : List Nat} (ha : Limbs a) (n : Nat) : Limbs (a.take n) :=
  fun y hy => ha y (List.take_subset n a hy)

theorem limbs_drop {a : List Nat} (ha : Limbs a) (n : Nat) : Limbs (a.drop n) :=
  fun y hy => ha y (List.drop_subset n a hy)

theorem limbs_append {a b : List Nat} (ha : Limbs a) (hb : Limbs b) :
    Limbs (a ++ b) := by
  intro y hy
  rcases List.mem_append.1 hy with h | h
  · exact ha y h
  · exact hb y h

theorem limbs_replicate (n x : Nat) (hx : x < 2^32) : Limbs (List.replicate n x) := by
  intro y hy
  rcases List.eq_of_mem_replicate hy with rfl
  exact hx

/-! ## Carry and borrow chains -/

theorem addChain_length {a b : List Nat} (h : b.length = a.length) (c : Nat) :
    (addChain c a b).length = a.length := by
  induction a generalizing b c with
  | nil => simp [addChain]
  | cons x xs ih =>
      cases b with
      | nil => simp at h
      | cons y ys =>
          simp only [addChain, List.length_cons]
          rw [ih (by simpa using h)]

theorem addChain_limbs {a b : List Nat} (ha : Limbs a) (c : Nat) :
    Limbs (addChain c a b) := by
  induction a generalizing b c with
  | nil => intro y hy; simp [addChain] at hy
  | cons x xs ih =>
      obtain ⟨hx, hxs⟩ := limbs_cons ha
      cases b with
      | nil => exact ha
      | cons y ys =>
          intro z hz
          simp only [addChain, List.mem_cons] at hz
          rcases hz with rfl | hz
          · exact Nat.mod_lt _ (by norm_num)
          · exact ih hxs _ z hz

theorem addChain_val {a b : List Nat} (h : b.length = a.length) (ha : Limbs a)
    (hb : Limbs b) {c : Nat} (hc : c ≤ 1) :
    val (addChain c a b) = (val a + val b + c) % 2^(32 * a.length) := by
  induction a generalizing b c with
  | nil =>
      cases b with
      | nil => simp [addChain, val, Nat.mod_one]
      | cons y ys => simp at h
  | cons x xs ih =>
      cases b with
      | nil => simp at h
      | cons y ys =>
          obtain ⟨hx, hxs⟩ := limbs_cons ha
          obtain ⟨hy, hys⟩ := limbs_cons hb
          have hlen : ys.length = xs.length := by simpa using h
          have hcc : (x + y + c) / 2^32 ≤ 1 := by omega
          simp only [addChain, addcarry_u32, val_cons, List.length_cons]
          rw [ih hlen hxs hys hcc, pow_split]
          have hd := Nat.div_add_mod (x + y + c) (2^32)
          have hsplit : x + 2^32 * val xs + (y + 2^32 * val ys) + c
              = (x + y + c) % 2^32 + 2^32 * (val xs + val ys + (x + y + c) / 2^32) := by
            omega
          rw [hsplit, add_mul_mod_split (Nat.mod_lt _ (by norm_num))]

theorem subChain_length {a b : List Nat} (h : b.length = a.length) (c : Nat) :
    (subChain c a b).length = a.length := by
  induction a generalizing b c with
  | nil => simp [subChain]
  | cons x xs ih =>
      cases b with
      | nil => simp at h
      | cons y ys =>
          simp only [subChain, List.length_cons]
          rw [ih (by simpa using h)]

theorem subChain_limbs {a b : List Nat} (ha : Limbs a) (c : Nat) :
    Limbs (subChain c a b) := by
  induction a generalizing b c with
  | nil => intro y hy; simp [subChain] at hy
  | cons x xs ih =>
      obtain ⟨hx, hxs⟩ := limbs_cons ha
      cases b with
      | nil => exact ha
      | cons y ys =>
          intro z hz
          simp only [subChain, List.mem_cons] at hz
          rcases hz with rfl | hz
          · exact Nat.mod_lt _ (by norm_num)
          · exact ih hxs _ z hz

/-- Int version of the splitting identity. -/
theorem int_add_mul_emod_split {A z M K : ℤ} (hA0 : 0 ≤ A) (hA : A < M)
    (hK : 0 < K) : (A + M * z) % (M * K) = A + M * (z % K) := by
  conv_lhs => rw [← Int.ediv_add_emod z K]
  have e : A + M * (K * (z / K) + z % K)
      = A + M * (z % K) + (M * K) * (z / K) := by ring
  rw [e, Int.add_mul_emod_self_left]
  have h0 : 0 ≤ z % K := Int.emod_nonneg z (ne_of_gt hK)
  have h1 : z % K < K := Int.emod_lt_of_pos z hK
  have hM : (0:ℤ) < M := lt_of_le_of_lt hA0 hA
  have h2 : M * (z % K) ≤ M * (K - 1) :=
    mul_le_mul_of_nonneg_left (by linarith) (by linarith)
  have h3 : (0:ℤ) ≤ M * (z % K) := mul_nonneg (le_of_lt hM) h0
  exact Int.emod_eq_of_lt (by linarith) (by nlinarith)

theorem int_pow_split (n : Nat) : (2:ℤ)^(32 * (n + 1)) = 2^32 * 2^(32 * n) := by
  rw [← pow_add]; ring_nf

theorem subChain_val {a b : List Nat} (h : b.length = a.length) (ha : Limbs a)
    (hb : Limbs b) {c : Nat} (hc : c ≤ 1) :
    (val (subChain c a b) : ℤ) = ((val a : ℤ) - val b - c) % 2^(32 * a.length) := by
  induction a generalizing b c with
  | nil =>
      cases b with
      | nil =>
          cases (by omega : c = 0 ∨ c = 1) with
          | inl h0 => subst h0; simp [subChain, val]
          | inr h1 => subst h1; simp [subChain, val]
      | cons y ys => simp at h
  | cons x xs ih =>
      cases b with
      | nil => simp at h
      | cons y ys =>
          obtain ⟨hx, hxs⟩ := limbs_cons ha
          obtain ⟨hy, hys⟩ := limbs_cons hb
          have hlen : ys.length = xs.length := by simpa using h
          have hc1 : (if x < y + c then 1 else 0) ≤ 1 := by split <;> omega
          have hd : (((2^32 + x - (y + c)) % 2^32 : Nat) : ℤ)
              = (x : ℤ) - y - c + 2^32 * (if x < y + c then (1:Nat) else 0) := by
            by_cases hlt : x < y + c
            · simp only [if_pos hlt]; omega
            · simp only [if_neg hlt]; omega
          have hd0 : (0:ℤ) ≤ (((2^32 + x - (y + c)) % 2^32 : Nat) : ℤ) := by positivity
          have hdlt : (((2^32 + x - (y + c)) % 2^32 : Nat) : ℤ) < 2^32 := by
            exact_mod_cast Nat.mod_lt _ (by norm_num : (0:Nat) < 2^32)
          have hK : (0:ℤ) < 2^(32 * xs.length) := by positivity
          calc (val (subChain c (x :: xs) (y :: ys)) : ℤ)
              = (((2^32 + x - (y + c)) % 2^32 : Nat) : ℤ)
                + 2^32 * (val (subChain (if x < y + c then 1 else 0) xs ys) : ℤ) := by
                simp only [subChain, subborrow_u32, val_cons]
                push_cast
                ring
            _ = (((2^32 + x - (y + c)) % 2^32 : Nat) : ℤ)
                + 2^32 * (((val xs : ℤ) - val ys - (if x < y + c then (1:Nat) else 0))
                  % 2^(32 * xs.length)) := by
                rw [ih hlen hxs hys hc1]
            _ = ((val (x :: xs) : ℤ) - val (y :: ys) - c) % 2^(32 * (x :: xs).length) := by
                rw [← int_add_mul_emod_split hd0 hdlt hK, val_cons, val_cons,
                  List.length_cons, int_pow_split]
                congr 1
                rw [hd]
                push_cast
                ring

theorem borrowOut_eq {a b : List Nat} (h : b.length = a.length) (ha : Limbs a)
    (hb : Limbs b) {c : Nat} (hc : c ≤ 1) :
    borrowOut c a b = if val a < val b + c then 1 else 0 := by
  induction a generalizing b c with
  | nil =>
      cases b with
      | nil => simp only [borrowOut, val]; split <;> omega
      | cons y ys => simp at h
  | cons x xs ih =>
      cases b with
      | nil => simp at h
      | cons y ys =>
          obtain ⟨hx, hxs⟩ := limbs_cons ha
          obtain ⟨hy, hys⟩ := limbs_cons hb
          have hlen : ys.length = xs.length := by simpa using h
          have hc1 : (if x < y + c then 1 else 0) ≤ 1 := by split <;> omega
          simp only [borrowOut, subborrow_u32, val_cons]
          rw [ih hlen hxs hys hc1]
          have hvx := val_lt hxs
          have hvy := val_lt hys
          rw [hlen] at hvy
          by_cases hlt : x < y + c
          · simp only [if_pos hlt]
            split <;> split <;> omega
          · simp only [if_neg hlt]
            split <;> split <;> omega

theorem lt_eq {a b : List Nat} (h : b.length = a.length) (ha : Limbs a)
    (hb : Limbs b) : lt a b = decide (val a < val b) := by
  unfold lt
  rw [borrowOut_eq h ha hb (by omega : 0 ≤ 1)]
  by_cases hv : val a < val b
  · simp [hv]
  · simp [hv]

/-! ## Sub-word shifts -/

/-- Disjoint bit ranges: OR is addition when the low part is below `2^t`
and the high part is a multiple of `2^t`. -/
theorem or_two_pow_mul {t x y : Nat} (hx : x < 2^t) : x ||| 2^t * y = x + 2^t * y := by
  apply Nat.eq_of_testBit_eq
  intro i
  rw [Nat.testBit_lor]
  have hshift : 2^t * y = y <<< t := by rw [Nat.shiftLeft_eq, mul_comm]
  rcases Nat.lt_or_ge i t with hi | hi
  · have h2 : (2^t * y).testBit i = false := by
      rw [hshift, Nat.testBit_shiftLeft]
      simp [Nat.not_le.mpr hi]
    rw [h2, Bool.or_false, Nat.testBit_to_div_mod, Nat.testBit_to_div_mod]
    have et : (2:Nat)^t = 2^i * (2 * 2^(t - i - 1)) := by
      rw [show (2:Nat) * 2^(t - i - 1) = 2^(1 + (t - i - 1)) by rw [pow_add, pow_one],
        ← pow_add]
      congr 1
      omega
    have e1 : 2^t * y = 2^i * (2 * (2^(t - i - 1) * y)) := by rw [et]; ring
    rw [e1, Nat.add_mul_div_left _ _ (Nat.pos_pow_of_pos i (by norm_num)),
      Nat.add_mul_mod_self_left]
  · have hx0 : x.testBit i = false :=
      Nat.testBit_lt_two_pow (lt_of_lt_of_le hx (Nat.pow_le_pow_right (by norm_num) hi))
    rw [hx0, Bool.false_or, hshift, Nat.testBit_shiftLeft,
      Nat.testBit_to_div_mod, Nat.testBit_to_div_mod]
    have e1 : (x + y <<< t) / 2^i = y / 2^(i - t) := by
      rw [Nat.shiftLeft_eq, mul_comm y]
      have e2 : (2:Nat)^i = 2^t * 2^(i - t) := by rw [← pow_add]; congr 1; omega
      rw [e2, ← Nat.div_div_eq_div_mul,
        Nat.add_mul_div_left _ _ (Nat.pos_pow_of_pos t (by norm_num)),
        Nat.div_eq_of_lt hx, Nat.zero_add]
    rw [e1]
    simp [ge_iff_le, hi]

theorem shiftCarry_length (t prev : Nat) (b : List Nat) :
    (shiftCarry t prev b).length = b.length := by
  induction b generalizing prev with
  | nil => rfl
  | cons x xs ih => simp only [shiftCarry, List.length_cons, ih]

/-- The shifted-word recombination `(prev >> (32-t)) | ((x << t) mod 2^32)`
is exactly `prev / 2^(32-t) + 2^t * (x mod 2^(32-t))`, a 32-bit word. -/
theorem shiftWord_eq {t prev x : Nat} (ht : 0 < t) (ht32 : t < 32)
    (hprev : prev < 2^32) :
    (prev >>> (32 - t)) ||| (x <<< t) % 2^32
      = prev / 2^(32 - t) + 2^t * (x % 2^(32 - t)) ∧
    prev / 2^(32 - t) + 2^t * (x % 2^(32 - t)) < 2^32 := by
  have hAB : (2:Nat)^t * 2^(32 - t) = 2^32 := by rw [← pow_add]; congr 1; omega
  have hlow : (x <<< t) % 2^32 = 2^t * (x % 2^(32 - t)) := by
    rw [Nat.shiftLeft_eq, mul_comm x, ← hAB, Nat.mul_mod_mul_left]
  have h1 : prev >>> (32 - t) = prev / 2^(32 - t) := Nat.shiftRight_eq_div_pow _ _
  have h2 : prev / 2^(32 - t) < 2^t := by
    rw [Nat.div_lt_iff_lt_mul (Nat.pos_pow_of_pos _ (by norm_num)), hAB]
    exact hprev
  have h3 : x % 2^(32 - t) + 1 ≤ 2^(32 - t) :=
    Nat.mod_lt _ (Nat.pos_pow_of_pos _ (by norm_num))
  constructor
  · rw [hlow, h1, or_two_pow_mul h2]
  · calc prev / 2^(32 - t) + 2^t * (x % 2^(32 - t))
        < 2^t + 2^t * (x % 2^(32 - t)) := by omega
      _ = 2^t * (x % 2^(32 - t) + 1) := by ring
      _ ≤ 2^t * 2^(32 - t) := Nat.mul_le_mul_left _ h3
      _ = 2^32 := hAB

theorem shiftCarry_limbs (t : Nat) (ht : 0 < t) (ht32 : t < 32) :
    ∀ b : List Nat, Limbs b → ∀ prev, prev < 2^32 → Limbs (shiftCarry t prev b) := by
  intro b
  induction b with
  | nil => intro _ prev _ z hz; simp [shiftCarry] at hz
  | cons x xs ih =>
      intro hb prev hprev z hz
      obtain ⟨hx, hxs⟩ := limbs_cons hb
      simp only [shiftCarry, List.mem_cons] at hz
      rcases hz with rfl | hz
      · rw [(shiftWord_eq ht ht32 hprev).1]
        exact (shiftWord_eq ht ht32 hprev).2
      · exact ih hxs x hx z hz

theorem shiftCarry_val (t : Nat) (ht : 0 < t) (ht32 : t < 32) :
    ∀ b : List Nat, Limbs b → ∀ prev, prev < 2^32 →
    val (shiftCarry t prev b)
      = (prev / 2^(32 - t) + 2^t * val b) % 2^(32 * b.length) := by
  intro b
  induction b with
  | nil => intro _ prev _; simp [shiftCarry, val, Nat.mod_one]
  | cons x xs ih =>
      intro hb prev hprev
      obtain ⟨hx, hxs⟩ := limbs_cons hb
      simp only [shiftCarry, val_cons, List.length_cons]
      rw [(shiftWord_eq ht ht32 hprev).1, ih hxs x hx, pow_split]
      have hd := Nat.div_add_mod x (2^(32 - t))
      have hAB : (2:Nat)^t * 2^(32 - t) = 2^32 := by rw [← pow_add]; congr 1; omega
      have e2 : prev / 2^(32 - t) + 2^t * (x + 2^32 * val xs)
          = prev / 2^(32 - t) + 2^t * (x % 2^(32 - t))
            + 2^32 * (x / 2^(32 - t) + 2^t * val xs) := by
        conv_lhs => rw [← hd]
        rw [← hAB]
        ring
      rw [e2, add_mul_mod_split (shiftWord_eq ht ht32 hprev).2]

/-! ## Shifted add/subtract: value semantics -/

theorem and31_eq_mod (s : Nat) : s &&& 31 = s % 32 := by
  rw [show (31:Nat) = 2^5 - 1 from rfl, Nat.and_pow_two_sub_one_eq_mod]

theorem shr5_eq_div (s : Nat) : s >>> 5 = s / 32 := by
  rw [Nat.shiftRight_eq_div_pow]

theorem shiftLimbs_val {b : List Nat} (hb : Limbs b) {t : Nat} (ht : 0 < t)
    (ht32 : t < 32) : val (shiftLimbs t b) = (2^t * val b) % 2^(32 * b.length) := by
  rw [shiftLimbs, shiftCarry_val t ht ht32 b hb 0 (by norm_num), Nat.zero_div,
    Nat.zero_add]

theorem shiftLimbs_length (t : Nat) (b : List Nat) :
    (shiftLimbs t b).length = b.length := by
  rw [shiftLimbs, shiftCarry_length]

theorem set_add_shifted_val {a b : List Nat} (h : b.length = a.length)
    (ha : Limbs a) (hb : Limbs b) (s : Nat) :
    val (set_add_shifted a b s) = (val a + 2^s * val b) % 2^(32 * a.length) := by
  unfold set_add_shifted
  by_cases hs32 : s < 32
  · by_cases hs0 : s = 0
    · subst hs0
      simp only [if_pos hs32, eq_self_iff_true, if_true]
      rw [addChain_val h ha hb (by omega)]
      norm_num
    · simp only [if_pos hs32, if_neg hs0]
      have ht : 0 < s := Nat.pos_of_ne_zero hs0
      have hlen : (shiftLimbs s b).length = a.length := by
        rw [shiftLimbs_length, h]
      rw [addChain_val hlen ha
        (shiftCarry_limbs s ht hs32 b hb 0 (by norm_num)) (by omega),
        shiftLimbs_val hb ht hs32, h, Nat.add_zero, Nat.add_mod_mod]
  · simp only [if_neg hs32]
    by_cases hjlen : a.length ≤ s >>> 5
    · simp only [if_pos hjlen]
      rw [shr5_eq_div] at hjlen
      have hW : 32 * a.length ≤ s := by omega
      obtain ⟨u, hu⟩ : (2:Nat)^(32 * a.length) ∣ 2^s := pow_dvd_pow 2 hW
      have e : val a + 2^(32 * a.length) * u * val b
          = val a + 2^(32 * a.length) * (u * val b) := by ring
      rw [hu, e, Nat.add_mul_mod_self_left, Nat.mod_eq_of_lt (val_lt ha)]
    · simp only [if_neg hjlen]
      rw [shr5_eq_div] at hjlen ⊢
      rw [and31_eq_mod]
      have hjlt : s / 32 < a.length := by omega
      have hjs : 32 * (s / 32) ≤ s := by omega
      have htake : (a.take (s / 32)).length = s / 32 := by
        rw [List.length_take]; omega
      have hdrop : (a.drop (s / 32)).length = a.length - s / 32 :=
        List.length_drop _ _
      have hMK : (2:Nat)^(32 * (s / 32)) * 2^(32 * (a.length - s / 32))
          = 2^(32 * a.length) := by
        rw [← pow_add]; congr 1; omega
      have hsplitA : val a = val a % 2^(32 * (s / 32))
          + 2^(32 * (s / 32)) * (val a / 2^(32 * (s / 32))) := by
        conv_lhs => rw [← Nat.div_add_mod (val a) (2^(32 * (s / 32)))]
        ring
      have hAlt : val a % 2^(32 * (s / 32)) < 2^(32 * (s / 32)) :=
        Nat.mod_lt _ (Nat.pos_pow_of_pos _ (by norm_num))
      by_cases ht0 : s % 32 = 0
      · simp only [if_pos ht0]
        have hblen : (b.take (a.length - s / 32)).length = (a.drop (s / 32)).length := by
          rw [List.length_take, hdrop, h]; omega
        rw [val_append, addChain_val hblen (limbs_drop ha _) (limbs_take hb _)
          (by omega), htake, val_take_le ha (by omega), val_drop ha,
          val_take_le hb (by omega), hdrop, Nat.add_zero]
        have hs : s = 32 * (s / 32) := by omega
        conv_rhs => rw [hs, hsplitA, ← hMK]
        have e2 : val a % 2^(32 * (s / 32))
            + 2^(32 * (s / 32)) * (val a / 2^(32 * (s / 32)))
            + 2^(32 * (s / 32)) * val b
            = val a % 2^(32 * (s / 32))
              + 2^(32 * (s / 32)) * (val a / 2^(32 * (s / 32)) + val b) := by ring
        rw [e2, add_mul_mod_split hAlt, Nat.add_mod_mod]
      · simp only [if_neg ht0]
        have htpos : 0 < s % 32 := Nat.pos_of_ne_zero ht0
        have htlt : s % 32 < 32 := Nat.mod_lt _ (by norm_num)
        have hshl : (shiftLimbs (s % 32) b).length = b.length := shiftLimbs_length _ _
        have hblen : ((shiftLimbs (s % 32) b).take (a.length - s / 32)).length
            = (a.drop (s / 32)).length := by
          rw [List.length_take, hshl, hdrop, h]; omega
        have hlimbs : Limbs (shiftLimbs (s % 32) b) :=
          shiftCarry_limbs _ htpos htlt b hb 0 (by norm_num)
        rw [val_append, addChain_val hblen (limbs_drop ha _) (limbs_take hlimbs _)
          (by omega), htake, val_take_le ha (by omega), val_drop ha,
          val_take_le hlimbs (by rw [hshl, h]; omega), hdrop,
          shiftLimbs_val hb htpos htlt, h, Nat.add_zero]
        have habsorb : (2^(s % 32) * val b) % 2^(32 * a.length)
            % 2^(32 * (a.length - s / 32))
            = (2^(s % 32) * val b) % 2^(32 * (a.length - s / 32)) :=
          Nat.mod_mod_of_dvd _ (pow_dvd_pow 2 (by omega))
        rw [habsorb]
        have hs : s = 32 * (s / 32) + s % 32 := by omega
        conv_rhs => rw [hs, hsplitA, ← hMK, pow_add]
        have e2 : val a % 2^(32 * (s / 32))
            + 2^(32 * (s / 32)) * (val a / 2^(32 * (s / 32)))
            + 2^(32 * (s / 32)) * 2^(s % 32) * val b
            = val a % 2^(32 * (s / 32))
              + 2^(32 * (s / 32)) * (val a / 2^(32 * (s / 32))
                + 2^(s % 32) * val b) := by ring
        rw [e2, add_mul_mod_split hAlt, Nat.add_mod_mod]

theorem int_sub_emod_absorb (x y n : ℤ) : (x - y % n) % n = (x - y) % n := by
  conv_lhs => rw [Int.sub_emod, Int.emod_emod_of_dvd _ (dvd_refl n)]
  rw [← Int.sub_emod]

theorem set_sub_shifted_val {a b : List Nat} (h : b.length = a.length)
    (ha : Limbs a) (hb : Limbs b) (s : Nat) :
    (val (set_sub_shifted a b s) : ℤ)
      = ((val a : ℤ) - 2^s * val b) % 2^(32 * a.length) := by
  unfold set_sub_shifted
  by_cases hs32 : s < 32
  · by_cases hs0 : s = 0
    · subst hs0
      simp only [if_pos hs32, eq_self_iff_true, if_true]
      rw [subChain_val h ha hb (by omega)]
      norm_num
    · simp only [if_pos hs32, if_neg hs0]
      have ht : 0 < s := Nat.pos_of_ne_zero hs0
      have hlen : (shiftLimbs s b).length = a.length := by
        rw [shiftLimbs_length, h]
      rw [subChain_val hlen ha
        (shiftCarry_limbs s ht hs32 b hb 0 (by norm_num)) (by omega),
        shiftLimbs_val hb ht hs32, h]
      push_cast
      rw [Int.sub_zero, int_sub_emod_absorb]
  · simp only [if_neg hs32]
    by_cases hjlen : a.length ≤ s >>> 5
    · simp only [if_pos hjlen]
      rw [shr5_eq_div] at hjlen
      have hW : 32 * a.length ≤ s := by omega
      obtain ⟨u, hu⟩ : (2:Nat)^(32 * a.length) ∣ 2^s := pow_dvd_pow 2 hW
      have hu2 : ((2:ℤ))^s = 2^(32 * a.length) * u := by exact_mod_cast hu
      have e : (val a : ℤ) - 2^(32 * a.length) * u * val b
          = (val a : ℤ) + 2^(32 * a.length) * (-(u * val b)) := by ring
      rw [hu2, e, Int.add_mul_emod_self_left]
      exact (Int.emod_eq_of_lt (by positivity) (by exact_mod_cast val_lt ha)).symm
    · simp only [if_neg hjlen]
      rw [shr5_eq_div] at hjlen ⊢
      rw [and31_eq_mod]
      have hjlt : s / 32 < a.length := by omega
      have htake : (a.take (s / 32)).length = s / 32 := by
        rw [List.length_take]; omega
      have hdrop : (a.drop (s / 32)).length = a.length - s / 32 :=
        List.length_drop _ _
      have hMK : ((2:ℤ))^(32 * (s / 32)) * 2^(32 * (a.length - s / 32))
          = 2^(32 * a.length) := by
        rw [← pow_add]; congr 1; omega
      have hsplitA : (val a : ℤ) = (val a % 2^(32 * (s / 32)) : Nat)
          + 2^(32 * (s / 32)) * ((val a / 2^(32 * (s / 32)) : Nat) : ℤ) := by
        exact_mod_cast (Nat.mod_add_div (val a) (2^(32 * (s / 32)))).symm
      have hA0 : (0:ℤ) ≤ ((val a % 2^(32 * (s / 32)) : Nat) : ℤ) := by positivity
      have hAlt : ((val a % 2^(32 * (s / 32)) : Nat) : ℤ) < 2^(32 * (s / 32)) := by
        exact_mod_cast Nat.mod_lt (val a)
          (Nat.pos_pow_of_pos (32 * (s / 32)) (by norm_num))
      have hK : (0:ℤ) < 2^(32 * (a.length - s / 32)) := by positivity
      by_cases ht0 : s % 32 = 0
      · simp only [if_pos ht0]
        have hblen : (b.take (a.length - s / 32)).length = (a.drop (s / 32)).length := by
          rw [List.length_take, hdrop, h]; omega
        have hvapp := val_append (a.take (s / 32))
          (subChain 0 (a.drop (s / 32)) (b.take (a.length - s / 32)))
        have hcast : (val (a.take (s / 32)
              ++ subChain 0 (a.drop (s / 32)) (b.take (a.length - s / 32))) : ℤ)
            = (val (a.take (s / 32)) : ℤ) + 2^(32 * (s / 32))
              * (val (subChain 0 (a.drop (s / 32)) (b.take (a.length - s / 32))) : ℤ) := by
          rw [hvapp, htake]
          push_cast
          ring
        rw [hcast, subChain_val hblen (limbs_drop ha _) (limbs_take hb _) (by omega),
          val_take_le ha (by omega), val_drop ha, val_take_le hb (by omega), hdrop]
        have hs : s = 32 * (s / 32) := by omega
        conv_rhs => rw [hs, hsplitA, ← hMK]
        have e2 : ((val a % 2^(32 * (s / 32)) : Nat) : ℤ)
            + 2^(32 * (s / 32)) * ((val a / 2^(32 * (s / 32)) : Nat) : ℤ)
            - 2^(32 * (s / 32)) * ((val b : Nat) : ℤ)
            = ((val a % 2^(32 * (s / 32)) : Nat) : ℤ)
              + 2^(32 * (s / 32)) * (((val a / 2^(32 * (s / 32)) : Nat) : ℤ)
                - val b) := by ring
        rw [e2, int_add_mul_emod_split hA0 hAlt hK]
        congr 1
        push_cast
        rw [Int.sub_zero, int_sub_emod_absorb]
      · simp only [if_neg ht0]
        have htpos : 0 < s % 32 := Nat.pos_of_ne_zero ht0
        have htlt : s % 32 < 32 := Nat.mod_lt _ (by norm_num)
        have hshl : (shiftLimbs (s % 32) b).length = b.length := shiftLimbs_length _ _
        have hblen : ((shiftLimbs (s % 32) b).take (a.length - s / 32)).length
            = (a.drop (s / 32)).length := by
          rw [List.length_take, hshl, hdrop, h]; omega
        have hlimbs : Limbs (shiftLimbs (s % 32) b) :=
          shiftCarry_limbs _ htpos htlt b hb 0 (by norm_num)
        have hvapp := val_append (a.take (s / 32))
          (subChain 0 (a.drop (s / 32)) ((shiftLimbs (s % 32) b).take (a.length - s / 32)))
        have hcast : (val (a.take (s / 32) ++ subChain 0 (a.drop (s / 32))
              ((shiftLimbs (s % 32) b).take (a.length - s / 32))) : ℤ)
            = (val (a.take (s / 32)) : ℤ) + 2^(32 * (s / 32))
              * (val (subChain 0 (a.drop (s / 32))
                ((shiftLimbs (s % 32) b).take (a.length - s / 32))) : ℤ) := by
          rw [hvapp, htake]
          push_cast
          ring
        rw [hcast, subChain_val hblen (limbs_drop ha _) (limbs_take hlimbs _) (by omega),
          val_take_le ha (by omega), val_drop ha,
          val_take_le hlimbs (by rw [hshl, h]; omega), hdrop,
          shiftLimbs_val hb htpos htlt, h]
        have habsorb : (2^(s % 32) * val b) % 2^(32 * a.length)
            % 2^(32 * (a.length - s / 32))
            = (2^(s % 32) * val b) % 2^(32 * (a.length - s / 32)) :=
          Nat.mod_mod_of_dvd _ (pow_dvd_pow 2 (by omega))
        rw [habsorb]
        have hs : s = 32 * (s / 32) + s % 32 := by omega
        conv_rhs => rw [hs, hsplitA, ← hMK, pow_add]
        have e2 : ((val a % 2^(32 * (s / 32)) : Nat) : ℤ)
            + 2^(32 * (s / 32)) * ((val a / 2^(32 * (s / 32)) : Nat) : ℤ)
            - 2^(32 * (s / 32)) * 2^(s % 32) * ((val b : Nat) : ℤ)
            = ((val a % 2^(32 * (s / 32)) : Nat) : ℤ)
              + 2^(32 * (s / 32)) * (((val a / 2^(32 * (s / 32)) : Nat) : ℤ)
                - 2^(s % 32) * val b) := by ring
        rw [e2, int_add_mul_emod_split hA0 hAlt hK]
        congr 1
        push_cast
        rw [Int.sub_zero, int_sub_emod_absorb]

theorem set_add_shifted_length {a b : List Nat} (h : b.length = a.length) (s : Nat) :
    (set_add_shifted a b s).length = a.length := by
  unfold set_add_shifted
  by_cases hs32 : s < 32
  · by_cases hs0 : s = 0
    · subst hs0
      simp only [if_pos hs32, eq_self_iff_true, if_true]
      exact addChain_length h 0
    · simp only [if_pos hs32, if_neg hs0]
      exact addChain_length (by rw [shiftLimbs_length, h]) 0
  · simp only [if_neg hs32]
    by_cases hjlen : a.length ≤ s >>> 5
    · simp only [if_pos hjlen]
    · simp only [if_neg hjlen]
      by_cases ht0 : s &&& 31 = 0
      · simp only [if_pos ht0]
        rw [List.length_append,
          addChain_length (by simp [List.length_take, List.length_drop, h]) 0,
          List.length_take, List.length_drop]
        omega
      · simp only [if_neg ht0]
        rw [List.length_append,
          addChain_length (by simp [List.length_take, List.length_drop,
            shiftLimbs_length, h]) 0,
          List.length_take, List.length_drop]
        omega

theorem set_sub_shifted_length {a b : List Nat} (h : b.length = a.length) (s : Nat) :
    (set_sub_shifted a b s).length = a.length := by
  unfold set_sub_shifted
  by_cases hs32 : s < 32
  · by_cases hs0 : s = 0
    · subst hs0
      simp only [if_pos hs32, eq_self_iff_true, if_true]
      exact subChain_length h 0
    · simp only [if_pos hs32, if_neg hs0]
      exact subChain_length (by rw [shiftLimbs_length, h]) 0
  · simp only [if_neg hs32]
    by_cases hjlen : a.length ≤ s >>> 5
    · simp only [if_pos hjlen]
    · simp only [if_neg hjlen]
      by_cases ht0 : s &&& 31 = 0
      · simp only [if_pos ht0]
        rw [List.length_append,
          subChain_length (by simp [List.length_take, List.length_drop, h]) 0,
          List.length_take, List.length_drop]
        omega
      · simp only [if_neg ht0]
        rw [List.length_append,
          subChain_length (by simp [List.length_take, List.length_drop,
            shiftLimbs_length, h]) 0,
          List.length_take, List.length_drop]
        omega

theorem set_add_shifted_limbs {a b : List Nat} (ha : Limbs a) (s : Nat) :
    Limbs (set_add_shifted a b s) := by
  unfold set_add_shifted
  by_cases hs32 : s < 32
  · by_cases hs0 : s = 0
    · subst hs0
      simp only [if_pos hs32, eq_self_iff_true, if_true]
      exact addChain_limbs ha 0
    · simp only [if_pos hs32, if_neg hs0]
      exact addChain_limbs ha 0
  · simp only [if_neg hs32]
    by_cases hjlen : a.length ≤ s >>> 5
    · simp only [if_pos hjlen]; exact ha
    · simp only [if_neg hjlen]
      by_cases ht0 : s &&& 31 = 0
      · simp only [if_pos ht0]
        exact limbs_append (limbs_take ha _) (addChain_limbs (limbs_drop ha _) 0)
      · simp only [if_neg ht0]
        exact limbs_append (limbs_take ha _) (addChain_limbs (limbs_drop ha _) 0)

theorem set_sub_shifted_limbs {a b : List Nat} (ha : Limbs a) (s : Nat) :
    Limbs (set_sub_shifted a b s) := by
  unfold set_sub_shifted
  by_cases hs32 : s < 32
  · by_cases hs0 : s = 0
    · subst hs0
      simp only [if_pos hs32, eq_self_iff_true, if_true]
      exact subChain_limbs ha 0
    · simp only [if_pos hs32, if_neg hs0]
      exact subChain_limbs ha 0
  · simp only [if_neg hs32]
    by_cases hjlen : a.length ≤ s >>> 5
    · simp only [if_pos hjlen]; exact ha
    · simp only [if_neg hjlen]
      by_cases ht0 : s &&& 31 = 0
      · simp only [if_pos ht0]
        exact limbs_append (limbs_take ha _) (subChain_limbs (limbs_drop ha _) 0)
      · simp only [if_neg ht0]
        exact limbs_append (limbs_take ha _) (subChain_limbs (limbs_drop ha _) 0)

/-! ## Bit size -/

theorem size_div2 {n : Nat} (hn : n ≠ 0) : Nat.size n = Nat.size (n / 2) + 1 := by
  apply le_antisymm
  · apply Nat.size_le.2
    have h1 : n / 2 < 2^(Nat.size (n / 2)) := Nat.lt_size_self _
    have h2 : (2:Nat)^(Nat.size (n / 2) + 1) = 2 * 2^(Nat.size (n / 2)) := by
      rw [pow_succ]; ring
    omega
  · have h2n : 2^(Nat.size (n / 2)) ≤ n := by
      rcases Nat.eq_zero_or_pos (n / 2) with h0 | hpos
      · rw [h0, Nat.size_zero]
        omega
      · have hs : 0 < Nat.size (n / 2) := Nat.size_pos.2 hpos
        have h3 : 2^(Nat.size (n / 2) - 1) ≤ n / 2 :=
          Nat.lt_size.1 (by omega)
        have h4 : (2:Nat)^(Nat.size (n / 2)) = 2 * 2^(Nat.size (n / 2) - 1) := by
          rw [← pow_succ']
          congr 1
          omega
        omega
    exact Nat.lt_size.2 h2n

theorem sizeAux_eq_size : ∀ fuel n, n < 2^fuel → sizeAux fuel n = Nat.size n := by
  intro fuel
  induction fuel with
  | zero =>
      intro n hn
      have : n = 0 := by simpa using hn
      subst this
      simp [sizeAux, Nat.size_zero]
  | succ f ih =>
      intro n hn
      by_cases h0 : n = 0
      · subst h0; simp [sizeAux, Nat.size_zero]
      · have hh : n / 2 < 2^f := by
          have : (2:Nat)^(f + 1) = 2 * 2^f := by rw [pow_succ]; ring
          omega
        simp only [sizeAux, if_neg h0, ih _ hh]
        exact (size_div2 h0).symm

theorem leading_zeros_eq (x : Nat) (hx : x < 2^32) :
    leading_zeros x = 32 - Nat.size x := by
  rw [leading_zeros, sizeAux_eq_size 32 x hx]

theorem topLimb_replicate (n x : Nat) (hn : 0 < n) :
    topLimb (List.replicate n x) = x := by
  cases n with
  | zero => omega
  | succ m =>
      rw [topLimb, List.reverse_replicate, List.replicate_succ]
      rfl

theorem bitlengthAux_self (m n : Nat) : bitlengthAux m (List.replicate n m) = 0 := by
  induction n with
  | zero => rfl
  | succ k ih =>
      rw [List.replicate_succ]
      simp [bitlengthAux, Nat.xor_self, ih]

theorem bitlengthAux_zero_prefix (t : Nat) (l : List Nat) :
    bitlengthAux 0 (List.replicate t 0 ++ l) = bitlengthAux 0 l := by
  induction t with
  | zero => rfl
  | succ k ih =>
      rw [List.replicate_succ, List.cons_append]
      simp only [bitlengthAux, Nat.zero_xor, Nat.xor_zero, ne_eq,
        not_true_eq_false]
      exact ih

theorem sgnw_zero : sgnw 0 = 0 := by norm_num [sgnw]

/-- C8: `bitlength` returns 0 on the all-zero value, `m+1` on the value
`2^m` for every nonnegative-representable `m` (`m + 1 < 32·N`), and 0 on
the all-ones (two's-complement −1) pattern, because every limb is XORed
with the sign mask of the top limb before the scan. -/
theorem c8_bitlength_spec (N : Nat) (hN : 0 < N) :
    bitlength (List.replicate N 0) = 0 ∧
    (∀ m, m + 1 < 32 * N → bitlength (pow2Limbs N m) = m + 1) ∧
    bitlength (List.replicate N (2^32 - 1)) = 0 := by
  refine ⟨?_, ?_, ?_⟩
  · rw [bitlength, topLimb_replicate N 0 hN, sgnw_zero, List.reverse_replicate]
    exact bitlengthAux_self 0 N
  · intro m hm
    have hq : m / 32 < N := by omega
    have hrev : (pow2Limbs N m).reverse
        = List.replicate (N - m / 32 - 1) 0 ++ 2^(m % 32) :: List.replicate (m / 32) 0 := by
      rw [pow2Limbs, List.reverse_append, List.reverse_cons, List.reverse_replicate,
        List.reverse_replicate, List.append_assoc]
      rfl
    have hr32 : m % 32 < 32 := Nat.mod_lt _ (by norm_num)
    have htop : topLimb (pow2Limbs N m) < 2^31 := by
      rw [topLimb, hrev]
      rcases Nat.eq_zero_or_pos (N - m / 32 - 1) with h0 | hpos
      · rw [h0]
        have hr : m % 32 < 31 := by omega
        have : (2:Nat)^(m % 32) < 2^31 := Nat.pow_lt_pow_right (by norm_num) hr
        simpa using this
      · obtain ⟨k, hk⟩ := Nat.exists_eq_succ_of_ne_zero (by omega : N - m / 32 - 1 ≠ 0)
        rw [hk, List.replicate_succ, List.cons_append]
        norm_num
    have hsgn : sgnw (topLimb (pow2Limbs N m)) = 0 := by
      rw [sgnw, if_neg]
      omega
    rw [bitlength, hsgn, hrev, bitlengthAux_zero_prefix]
    have hp : (2:Nat)^(m % 32) ≠ 0 := Nat.pos_iff_ne_zero.1 (Nat.pos_pow_of_pos _ (by norm_num))
    simp only [bitlengthAux, Nat.xor_zero, ne_eq, hp, not_false_eq_true, if_pos,
      List.length_replicate]
    rw [leading_zeros_eq _ (Nat.pow_lt_pow_right (by norm_num) hr32), Nat.size_pow]
    omega
  · have h1 : (2:Nat)^32 - 1 ≥ 2^31 := by norm_num
    rw [bitlength, topLimb_replicate N _ hN, List.reverse_replicate, sgnw, if_pos h1]
    exact bitlengthAux_self _ N

/-- Witness for C8 at `N = 4`, `m = 100`. -/
theorem c8_bitlength_spec_witness :
    0 < 4 ∧ bitlength (List.replicate 4 0) = 0 ∧
    bitlength (pow2Limbs 4 100) = 101 ∧
    bitlength (List.replicate 4 (2^32 - 1)) = 0 :=
  ⟨by decide, (c8_bitlength_spec 4 (by decide)).1,
    (c8_bitlength_spec 4 (by decide)).2.1 100 (by decide),
    (c8_bitlength_spec 4 (by decide)).2.2⟩

/-! ## The branch-free leading-zero count -/

theorem lzStep_eq (k x : Nat) (hk : 0 < k) (hk16 : k ≤ 16) (hx : x < 2^(2*k)) :
    lzStep k x = if x < 2^k then (k, x) else (0, x >>> k) := by
  have hq : x >>> k = x / 2^k := Nat.shiftRight_eq_div_pow _ _
  have hkk : (2:Nat)^k * 2^k = 2^(2*k) := by rw [← pow_add]; congr 1; omega
  have hqlt : x / 2^k < 2^k := by
    rw [Nat.div_lt_iff_lt_mul (Nat.pos_pow_of_pos _ (by norm_num)), hkk]
    exact hx
  have hk16p : (2:Nat)^k ≤ 2^16 := Nat.pow_le_pow_right (by norm_num) hk16
  by_cases hlt : x < 2^k
  · have h0 : x >>> k = 0 := by rw [hq]; exact Nat.div_eq_of_lt hlt
    have hm : wsub32 (x >>> k) 1 = 2^32 - 1 := by rw [h0]; rfl
    have hsg : sgnw (2^32 - 1) = 2^32 - 1 := by rw [sgnw, if_pos (by norm_num)]
    rw [lzStep, hm, hsg, if_pos hlt]
    have e1 : (2^32 - 1) &&& k = k := by
      rw [Nat.and_comm, show (2:Nat)^32 - 1 = 2^32 - 1 from rfl,
        Nat.and_pow_two_sub_one_eq_mod]
      exact Nat.mod_eq_of_lt (by omega)
    have e2 : (2^32 - 1) &&& (x ^^^ (x >>> k)) = x := by
      rw [h0, Nat.xor_zero, Nat.and_comm, Nat.and_pow_two_sub_one_eq_mod]
      exact Nat.mod_eq_of_lt (by
        calc x < 2^(2*k) := hx
          _ ≤ 2^32 := Nat.pow_le_pow_right (by norm_num) (by omega))
    rw [e1, e2, h0, Nat.zero_xor]
  · have hq1 : 1 ≤ x >>> k := by
      rw [hq]
      exact Nat.one_le_div_iff (Nat.pos_pow_of_pos _ (by norm_num)) |>.2
        (le_of_not_lt hlt)
    have hm : wsub32 (x >>> k) 1 = x >>> k - 1 := by
      rw [wsub32, show 2^32 + x >>> k - 1 = 2^32 + (x >>> k - 1) by omega,
        Nat.add_mod_left]
      exact Nat.mod_eq_of_lt (by rw [hq]; omega)
    have hsg : sgnw (x >>> k - 1) = 0 := by
      rw [sgnw, if_neg]
      rw [hq]
      have : x / 2^k < 2^16 := lt_of_lt_of_le hqlt hk16p
      omega
    rw [lzStep, hm, hsg, if_neg hlt, Nat.zero_and, Nat.zero_and, Nat.xor_zero]

theorem size_shiftr (x k : Nat) : Nat.size (x >>> k) = Nat.size x - k := by
  have hq : x >>> k = x / 2^k := Nat.shiftRight_eq_div_pow _ _
  apply le_antisymm
  · apply Nat.size_le.2
    rw [hq, Nat.div_lt_iff_lt_mul (Nat.pos_pow_of_pos _ (by norm_num)), ← pow_add]
    calc x < 2^(Nat.size x) := Nat.lt_size_self _
      _ ≤ 2^(Nat.size x - k + k) := Nat.pow_le_pow_right (by norm_num) (by omega)
  · rcases le_or_lt (Nat.size x) k with hle | hgt
    · omega
    · have hx0 : 0 < Nat.size x := by omega
      have h1 : 2^(Nat.size x - 1) ≤ x := Nat.lt_size.1 (by omega)
      have h2 : 2^(Nat.size x - k - 1) ≤ x >>> k := by
        rw [hq, Nat.le_div_iff_mul_le (Nat.pos_pow_of_pos _ (by norm_num)),
          ← pow_add]
        calc (2:Nat)^(Nat.size x - k - 1 + k) = 2^(Nat.size x - 1) := by
              congr 1; omega
          _ ≤ x := h1
      have := Nat.lt_size.2 h2
      omega

theorem lzStep_size (k x : Nat) (hk : 0 < k) (hk16 : k ≤ 16) (hx : x < 2^(2*k)) :
    (lzStep k x).1 + (k - Nat.size (lzStep k x).2) = 2*k - Nat.size x ∧
    (lzStep k x).2 < 2^k ∧
    ((lzStep k x).1 = k ∨ (lzStep k x).1 = 0) := by
  rw [lzStep_eq k x hk hk16 hx]
  by_cases hlt : x < 2^k
  · rw [if_pos hlt]
    have hs : Nat.size x ≤ k := Nat.size_le.2 hlt
    refine ⟨?_, ?_, ?_⟩
    · show k + (k - Nat.size x) = 2*k - Nat.size x
      omega
    · show x < 2^k
      exact hlt
    · exact Or.inl rfl
  · rw [if_neg hlt]
    have hs1 : k < Nat.size x := Nat.lt_size.2 (le_of_not_lt hlt)
    have hs2 : Nat.size x ≤ 2*k := Nat.size_le.2 hx
    have hq : x >>> k = x / 2^k := Nat.shiftRight_eq_div_pow _ _
    have hkk : (2:Nat)^k * 2^k = 2^(2*k) := by rw [← pow_add]; congr 1; omega
    have hqlt : x >>> k < 2^k := by
      rw [hq, Nat.div_lt_iff_lt_mul (Nat.pos_pow_of_pos _ (by norm_num)), hkk]
      exact hx
    refine ⟨?_, ?_, ?_⟩
    · show 0 + (k - Nat.size (x >>> k)) = 2*k - Nat.size x
      rw [size_shiftr]
      omega
    · show x >>> k < 2^k
      exact hqlt
    · exact Or.inr rfl

theorem lz_tail_eq (y : Nat) (hy : y < 4) :
    wsub32 2 y &&& (wsub32 y 3 >>> 2) = 2 - Nat.size y := by
  have s2 : Nat.size 2 = 2 := by
    have := @Nat.size_pow 1
    simpa using this
  have s3 : Nat.size 3 = 2 := by
    rw [size_div2 (by norm_num)]
    norm_num [Nat.size_one]
  interval_cases y
  · rw [Nat.size_zero]; decide
  · rw [Nat.size_one]; decide
  · rw [s2]; decide
  · rw [s3]; decide

/-- C9: the branch-free fallback `lzcnt` agrees with the reference 32-bit
leading-zero count (`32 − bit size`) on every 32-bit input; in particular
`lzcnt 0 = 32`, `lzcnt 0x80000000 = 0`, `lzcnt 1 = 31`. -/
theorem c9_lzcnt_spec :
    (∀ x : Nat, x < 2^32 →
      lzcnt x = 32 - Nat.size x ∧ lzcnt x = leading_zeros x) ∧
    lzcnt 0 = 32 ∧ lzcnt 0x80000000 = 0 ∧ lzcnt 1 = 31 := by
  constructor
  · intro x hx
    have h1 := lzStep_size 16 x (by norm_num) (by norm_num) (by simpa using hx)
    have h2 := lzStep_size 8 (lzStep 16 x).2 (by norm_num) (by norm_num)
      (by simpa using h1.2.1)
    have h3 := lzStep_size 4 (lzStep 8 (lzStep 16 x).2).2 (by norm_num) (by norm_num)
      (by simpa using h2.2.1)
    have h4 := lzStep_size 2 (lzStep 4 (lzStep 8 (lzStep 16 x).2).2).2 (by norm_num)
      (by norm_num) (by simpa using h3.2.1)
    have hy : (lzStep 2 (lzStep 4 (lzStep 8 (lzStep 16 x).2).2).2).2 < 4 := by
      simpa using h4.2.1
    have htail := lz_tail_eq _ hy
    have hsy : Nat.size (lzStep 2 (lzStep 4 (lzStep 8 (lzStep 16 x).2).2).2).2 ≤ 2 :=
      Nat.size_le.2 (by simpa using h4.2.1)
    have hmain : lzcnt x = 32 - Nat.size x := by
      have hunfold : lzcnt x = (((((lzStep 16 x).1 ||| (lzStep 8 (lzStep 16 x).2).1)
          ||| (lzStep 4 (lzStep 8 (lzStep 16 x).2).2).1)
          ||| (lzStep 2 (lzStep 4 (lzStep 8 (lzStep 16 x).2).2).2).1)
          + (wsub32 2 (lzStep 2 (lzStep 4 (lzStep 8 (lzStep 16 x).2).2).2).2 &&&
            (wsub32 (lzStep 2 (lzStep 4 (lzStep 8 (lzStep 16 x).2).2).2).2 3 >>> 2)))
          % 2^32 := rfl
      rw [hunfold, htail]
      have hor : (((lzStep 16 x).1 ||| (lzStep 8 (lzStep 16 x).2).1)
          ||| (lzStep 4 (lzStep 8 (lzStep 16 x).2).2).1)
          ||| (lzStep 2 (lzStep 4 (lzStep 8 (lzStep 16 x).2).2).2).1
          = (lzStep 16 x).1 + (lzStep 8 (lzStep 16 x).2).1
            + (lzStep 4 (lzStep 8 (lzStep 16 x).2).2).1
            + (lzStep 2 (lzStep 4 (lzStep 8 (lzStep 16 x).2).2).2).1 := by
        rcases h1.2.2 with e1 | e1 <;> rcases h2.2.2 with e2 | e2 <;>
          rcases h3.2.2 with e3 | e3 <;> rcases h4.2.2 with e4 | e4 <;>
          (rw [e1, e2, e3, e4]; decide)
      rw [hor]
      have c1 := h1.1
      have c2 := h2.1
      have c3 := h3.1
      have c4 := h4.1
      have hb1 : (lzStep 16 x).1 ≤ 16 := by rcases h1.2.2 with e | e <;> omega
      have hb2 : (lzStep 8 (lzStep 16 x).2).1 ≤ 8 := by rcases h2.2.2 with e | e <;> omega
      have hb3 : (lzStep 4 (lzStep 8 (lzStep 16 x).2).2).1 ≤ 4 := by
        rcases h3.2.2 with e | e <;> omega
      have hb4 : (lzStep 2 (lzStep 4 (lzStep 8 (lzStep 16 x).2).2).2).1 ≤ 2 := by
        rcases h4.2.2 with e | e <;> omega
      rw [Nat.mod_eq_of_lt (by omega)]
      omega
    refine ⟨hmain, ?_⟩
    rw [hmain, leading_zeros, sizeAux_eq_size 32 x hx]
  · refine ⟨by decide, by decide, by decide⟩

/-- Witness for C9 at `x = 12345`. -/
theorem c9_lzcnt_spec_witness :
    (12345 : Nat) < 2^32 ∧ lzcnt 12345 = 32 - Nat.size 12345 :=
  ⟨by decide, (c9_lzcnt_spec.1 12345 (by decide)).1⟩

/-! ## Schoolbook multiplication -/

theorem val_all_zero {l : List Nat} (h : ∀ x ∈ l, x = 0) : val l = 0 := by
  induction l with
  | nil => rfl
  | cons x xs ih =>
      rw [val_cons, h x (by simp), ih fun y hy => h y (by simp [hy])]
      norm_num

theorem mulRow_spec (ai : Nat) (hai : ai < 2^32) :
    ∀ (b d1 d2 : List Nat) (cc : Nat), Limbs b → Limbs d1 →
      d1.length = b.length → cc < 2^32 →
      ∃ e, mulRow ai b (d1 ++ 0 :: d2) cc = e ++ d2 ∧ e.length = b.length + 1 ∧
        Limbs e ∧ val e = val d1 + ai * val b + cc := by
  intro b
  induction b with
  | nil =>
      intro d1 d2 cc _ _ hlen hcc
      have hd1 : d1 = [] := List.length_eq_zero.1 (by simpa using hlen)
      subst hd1
      refine ⟨[cc], rfl, rfl, ?_, ?_⟩
      · intro z hz
        simp only [List.mem_singleton] at hz
        subst hz
        exact hcc
      · simp [val_cons, val]
  | cons bj bs ih =>
      intro d1 d2 cc hb hd1 hlen hcc
      cases d1 with
      | nil => simp at hlen
      | cons dj d1' =>
          obtain ⟨hbj, hbs⟩ := limbs_cons hb
          obtain ⟨hdj, hd1'⟩ := limbs_cons hd1
          have hlen' : d1'.length = bs.length := by simpa using hlen
          have hprod : ai * bj ≤ (2^32 - 1) * (2^32 - 1) :=
            Nat.mul_le_mul (by omega) (by omega)
          have hcc' : (ai * bj + dj + cc) / 2^32 < 2^32 := by
            rw [Nat.div_lt_iff_lt_mul (by norm_num : (0:Nat) < 2^32)]
            omega
          obtain ⟨e', he', hlen'', hle', hve'⟩ :=
            ih d1' d2 ((ai * bj + dj + cc) / 2^32) hbs hd1' hlen' hcc'
          refine ⟨(ai * bj + dj + cc) % 2^32 :: e', ?_, ?_, ?_, ?_⟩
          · show ((umull_add2 ai bj dj cc).1
                :: mulRow ai bs (d1' ++ 0 :: d2) (umull_add2 ai bj dj cc).2)
              = ((ai * bj + dj + cc) % 2^32 :: e') ++ d2
            rw [List.cons_append]
            show ((ai * bj + dj + cc) % 2^32
                :: mulRow ai bs (d1' ++ 0 :: d2) ((ai * bj + dj + cc) / 2^32))
              = (ai * bj + dj + cc) % 2^32 :: (e' ++ d2)
            rw [he']
          · simp [hlen'']
          · intro z hz
            simp only [List.mem_cons] at hz
            rcases hz with rfl | h
            · exact Nat.mod_lt _ (by norm_num)
            · exact hle' z h
          · rw [val_cons, hve', val_cons, val_cons]
            have e1 : (ai * bj + dj + cc) % 2^32
                + 2^32 * (val d1' + ai * val bs + (ai * bj + dj + cc) / 2^32)
                = ((ai * bj + dj + cc) % 2^32 + 2^32 * ((ai * bj + dj + cc) / 2^32))
                  + 2^32 * val d1' + 2^32 * (ai * val bs) := by ring
            rw [e1, Nat.mod_add_div]
            ring

theorem umulAux_spec (b : List Nat) (hb : Limbs b) :
    ∀ (a : List Nat) (i : Nat) (d : List Nat), Limbs a → Limbs d →
      i + b.length + a.length ≤ d.length →
      (∀ x ∈ d.drop (i + b.length), x = 0) →
      val (umulAux b a d i) = val d + 2^(32*i) * (val a * val b) ∧
      (umulAux b a d i).length = d.length ∧ Limbs (umulAux b a d i) := by
  intro a
  induction a with
  | nil =>
      intro i d _ hd _ _
      refine ⟨?_, rfl, hd⟩
      simp [umulAux, val]
  | cons ai as iha =>
      intro i d ha hd hroom hzeros
      obtain ⟨hai, has⟩ := limbs_cons ha
      have hroom1 : i + b.length < d.length := by
        simp only [List.length_cons] at hroom
        omega
      cases hdl : d.drop (i + b.length) with
      | nil =>
          have hl := List.length_drop (i + b.length) d
          rw [hdl] at hl
          simp at hl
          omega
      | cons w ws =>
          have hw : w = 0 := hzeros w (by rw [hdl]; simp)
          have hws : ws = d.drop (i + b.length + 1) := by
            have h1 : List.drop 1 (d.drop (i + b.length)) = d.drop (i + b.length + 1) :=
              List.drop_drop 1 (i + b.length) d
            rw [hdl] at h1
            simpa using h1
          have hsplit : d.drop i
              = (d.drop i).take b.length ++ 0 :: d.drop (i + b.length + 1) := by
            conv_lhs => rw [← List.take_append_drop b.length (d.drop i)]
            rw [List.drop_drop, hdl, hw, hws]
          have hd1len : ((d.drop i).take b.length).length = b.length := by
            rw [List.length_take, List.length_drop]
            simp only [inf_eq_left]
            omega
          obtain ⟨e, he, helen, hel, hev⟩ := mulRow_spec ai hai b
            ((d.drop i).take b.length) (d.drop (i + b.length + 1)) 0
            hb (limbs_take (limbs_drop hd i) _) hd1len (by norm_num)
          have hstep : umulAux b (ai :: as) d i
              = umulAux b as ((d.take i ++ e) ++ d.drop (i + b.length + 1)) (i + 1) := by
            show umulAux b as (d.take i ++ mulRow ai b (d.drop i) 0) (i + 1) = _
            rw [hsplit, he, ← List.append_assoc]
          have htakelen : (d.take i).length = i := by
            rw [List.length_take]
            simp only [inf_eq_left]
            omega
          have hprelen : (d.take i ++ e).length = i + 1 + b.length := by
            rw [List.length_append, htakelen, helen]
            omega
          have hd'len : ((d.take i ++ e) ++ d.drop (i + b.length + 1)).length
              = d.length := by
            rw [List.length_append, hprelen, List.length_drop]
            omega
          have hd'limbs : Limbs ((d.take i ++ e) ++ d.drop (i + b.length + 1)) :=
            limbs_append (limbs_append (limbs_take hd _) hel) (limbs_drop hd _)
          have hd'drop : ((d.take i ++ e) ++ d.drop (i + b.length + 1)).drop
              (i + 1 + b.length) = d.drop (i + b.length + 1) := by
            rw [← hprelen]
            exact List.drop_left _ _
          have hd'zeros : ∀ x ∈ ((d.take i ++ e)
              ++ d.drop (i + b.length + 1)).drop (i + 1 + b.length), x = 0 := by
            intro x hx
            rw [hd'drop] at hx
            apply hzeros
            have hsub : d.drop (i + b.length + 1) ⊆ d.drop (i + b.length) := by
              rw [← List.drop_drop 1 (i + b.length) d]
              exact List.drop_subset _ _
            exact hsub hx
          have hroom' : i + 1 + b.length + as.length
              ≤ ((d.take i ++ e) ++ d.drop (i + b.length + 1)).length := by
            rw [hd'len]
            simp only [List.length_cons] at hroom
            omega
          obtain ⟨hval, hlen2, hlimbs2⟩ := iha (i + 1)
            ((d.take i ++ e) ++ d.drop (i + b.length + 1)) has hd'limbs hroom' hd'zeros
          refine ⟨?_, ?_, ?_⟩
          · rw [hstep, hval, val_append, val_append, hprelen, htakelen, hev]
            conv_rhs => rw [← List.take_append_drop i d, val_append, htakelen]
            conv_rhs => rw [hsplit, val_append, hd1len, val_cons, val_cons]
            rw [show (2:Nat)^(32*(i+1+b.length)) = 2^(32*i) * 2^(32*b.length) * 2^32 by
                rw [← pow_add, ← pow_add]; try congr 1; try omega,
              show (2:Nat)^(32*(i+1)) = 2^(32*i) * 2^32 by
                rw [← pow_add]; try congr 1; try omega]
            ring
          · rw [hstep, hlen2, hd'len]
          · rw [hstep]
            exact hlimbs2

/-- Exactness of the schoolbook product `umul` of `define_lagrange`:
the full product of two operands fits at the accumulator width. -/
theorem umul_val {a b : List Nat} (ha : Limbs a) (hb : Limbs b) (n3 : Nat)
    (hlen : a.length + b.length ≤ n3) :
    val (umul n3 a b) = val a * val b ∧ (umul n3 a b).length = n3 ∧
      Limbs (umul n3 a b) := by
  have hz : ∀ x ∈ (List.replicate n3 0).drop (0 + b.length), x = 0 := by
    intro x hx
    exact List.eq_of_mem_replicate (List.drop_subset _ _ hx)
  obtain ⟨h1, h2, h3⟩ := umulAux_spec b hb a 0 (List.replicate n3 0) ha
    (limbs_replicate n3 0 (by norm_num))
    (by rw [List.length_replicate]; omega) hz
  refine ⟨?_, ?_, h3⟩
  · rw [umul] at *
    rw [h1, val_replicate_zero]
    norm_num
  · rw [umul] at *
    rw [h2, List.length_replicate]

/-! ## Two's-complement reading -/

theorem topLimb_cons_cons (x y : Nat) (rest : List Nat) :
    topLimb (x :: y :: rest) = topLimb (y :: rest) := by
  rw [topLimb, topLimb, List.reverse_cons]
  rcases hrev : (y :: rest).reverse with _ | ⟨h0, t0⟩
  · exact absurd hrev (by simp)
  · simp

theorem topLimb_lt {a : List Nat} (ha : Limbs a) (h0 : a ≠ []) :
    topLimb a < 2^32 := by
  rcases hrev : a.reverse with _ | ⟨h0', t0⟩
  · exact absurd (by simpa using congrArg List.reverse hrev) h0
  · have : h0' ∈ a := by
      rw [← List.mem_reverse, hrev]
      simp
    rw [topLimb, hrev]
    exact ha h0' this

theorem val_top_decomp : ∀ {a : List Nat}, a ≠ [] →
    val a = val a.dropLast + 2^(32 * (a.length - 1)) * topLimb a := by
  intro a
  induction a with
  | nil => intro h; exact absurd rfl h
  | cons x xs ih =>
      intro _
      cases xs with
      | nil => simp [val, topLimb, List.dropLast]
      | cons y rest =>
          rw [val_cons, ih (by simp), topLimb_cons_cons]
          have hlen : (x :: y :: rest).length - 1 = (y :: rest).length := by simp
          rw [hlen]
          have hdl : (x :: y :: rest).dropLast = x :: (y :: rest).dropLast := rfl
          rw [hdl, val_cons]
          have hpow : (2:Nat)^(32 * (y :: rest).length)
              = 2^32 * 2^(32 * ((y :: rest).length - 1)) := by
            rw [← pow_add]
            congr 1
            simp only [List.length_cons]
            omega
          rw [hpow]
          ring

theorem is_negative_iff {a : List Nat} (ha : Limbs a) (h0 : a ≠ []) :
    is_negative a = true ↔ 2^(32 * a.length - 1) ≤ val a := by
  have hLpos : 0 < a.length := List.length_pos.2 h0
  have hdec := val_top_decomp h0
  have hdllen : a.dropLast.length = a.length - 1 := List.length_dropLast a
  have hdlval : val a.dropLast < 2^(32 * (a.length - 1)) := by
    have := val_lt (fun y hy => ha y (List.dropLast_subset a hy))
    rwa [hdllen] at this
  have htop : topLimb a < 2^32 := topLimb_lt ha h0
  have hsplit : (2:Nat)^(32 * a.length - 1) = 2^(32 * (a.length - 1)) * 2^31 := by
    rw [← pow_add]
    congr 1
    omega
  rw [is_negative, decide_eq_true_eq]
  constructor
  · intro hneg
    calc 2^(32 * a.length - 1) = 2^(32 * (a.length - 1)) * 2^31 := hsplit
      _ ≤ 2^(32 * (a.length - 1)) * topLimb a := Nat.mul_le_mul_left _ hneg
      _ ≤ val a := by rw [hdec]; omega
  · intro hval
    by_contra hneg
    have htop' : topLimb a + 1 ≤ 2^31 := by omega
    have : val a < 2^(32 * a.length - 1) := by
      calc val a = val a.dropLast + 2^(32 * (a.length - 1)) * topLimb a := hdec
        _ < 2^(32 * (a.length - 1)) + 2^(32 * (a.length - 1)) * topLimb a := by omega
        _ = 2^(32 * (a.length - 1)) * (topLimb a + 1) := by ring
        _ ≤ 2^(32 * (a.length - 1)) * 2^31 := Nat.mul_le_mul_left _ htop'
        _ = 2^(32 * a.length - 1) := hsplit.symm
    omega

theorem ival_range {a : List Nat} (ha : Limbs a) (h0 : a ≠ []) :
    -(2:ℤ)^(32 * a.length - 1) ≤ ival a ∧ ival a < 2^(32 * a.length - 1) := by
  have hLpos : 0 < a.length := List.length_pos.2 h0
  have hv := val_lt ha
  have hsplit : (2:ℤ)^(32 * a.length) = 2 * 2^(32 * a.length - 1) := by
    rw [← pow_succ']
    congr 1
    omega
  rw [ival]
  by_cases hneg : is_negative a = true
  · rw [if_pos hneg]
    have hge : 2^(32 * a.length - 1) ≤ val a := (is_negative_iff ha h0).1 hneg
    constructor
    · have : ((2:Nat)^(32 * a.length - 1) : ℤ) ≤ (val a : ℤ) := by exact_mod_cast hge
      push_cast at this ⊢
      linarith [hsplit]
    · have : ((val a : Nat) : ℤ) < (2:ℤ)^(32 * a.length) := by exact_mod_cast hv
      have hp : (0:ℤ) < 2^(32 * a.length - 1) := by positivity
      linarith [hsplit]
  · rw [if_neg hneg]
    have hlt : val a < 2^(32 * a.length - 1) := by
      rcases Nat.lt_or_ge (val a) (2^(32 * a.length - 1)) with h | h
      · exact h
      · exact absurd ((is_negative_iff ha h0).2 h) hneg
    constructor
    · have h1 : (0:ℤ) ≤ (val a : ℤ) := by positivity
      have h2 : (0:ℤ) < 2^(32 * a.length - 1) := by positivity
      linarith
    · exact_mod_cast hlt

theorem ival_congr (a : List Nat) :
    (val a : ℤ) ≡ ival a [ZMOD (2:ℤ)^(32 * a.length)] := by
  rw [ival]
  by_cases hneg : is_negative a = true
  · rw [if_pos hneg]
    show (val a : ℤ) % 2^(32 * a.length)
      = ((val a : ℤ) - 2^(32 * a.length)) % 2^(32 * a.length)
    conv_rhs => rw [Int.sub_emod, Int.emod_self, sub_zero,
      Int.emod_emod_of_dvd _ (dvd_refl _)]
  · rw [if_neg hneg]

theorem ival_eq_iff {a : List Nat} (ha : Limbs a) (h0 : a ≠ []) {g : ℤ}
    (hcong : (val a : ℤ) ≡ g [ZMOD (2:ℤ)^(32 * a.length)]) :
    ival a = g ↔ (-(2:ℤ)^(32 * a.length - 1) ≤ g ∧ g < 2^(32 * a.length - 1)) := by
  have hLpos : 0 < a.length := List.length_pos.2 h0
  have hsplit : (2:ℤ)^(32 * a.length) = 2 * 2^(32 * a.length - 1) := by
    rw [← pow_succ']
    congr 1
    omega
  have hrange := ival_range ha h0
  constructor
  · intro h
    rw [← h]
    exact hrange
  · intro ⟨hg1, hg2⟩
    have hcong2 : ival a ≡ g [ZMOD (2:ℤ)^(32 * a.length)] :=
      (ival_congr a).symm.trans hcong
    obtain ⟨t, ht⟩ := (Int.modEq_iff_dvd.1 hcong2)
    have hp : (0:ℤ) < 2^(32 * a.length - 1) := by positivity
    have ht0 : t = 0 := by
      rcases lt_trichotomy t 0 with h | h | h
      · exfalso
        have h1 : t ≤ -1 := by omega
        have h2 : (2:ℤ)^(32 * a.length) * t ≤ 2^(32 * a.length) * (-1) :=
          mul_le_mul_of_nonneg_left h1 (by positivity)
        have h3 : g - ival a ≤ -(2:ℤ)^(32 * a.length) := by
          rw [ht] at *
          linarith
        linarith [hrange.1, hrange.2, hsplit]
      · exact h
      · exfalso
        have h1 : (1:ℤ) ≤ t := by omega
        have h2 : (2:ℤ)^(32 * a.length) * 1 ≤ 2^(32 * a.length) * t :=
          mul_le_mul_of_nonneg_left h1 (by positivity)
        have h3 : (2:ℤ)^(32 * a.length) ≤ g - ival a := by
          rw [ht] at *
          linarith
        linarith [hrange.1, hrange.2, hsplit]
    rw [ht0, mul_zero] at ht
    omega

/-! ## Control flow of the two loops -/

theorem phase1Step_cases (n2 max_bitlen : Nat) (st : LagState) :
    (ltnw (swapUV st).nu n2 = true →
      phase1Step n2 max_bitlen st = P1Out.brk (swapUV st)) ∧
    (ltnw (swapUV st).nu n2 = false → bitlength (swapUV st).nv ≤ max_bitlen →
      phase1Step n2 max_bitlen st = P1Out.ret (swapUV st).v0 (swapUV st).v1) ∧
    (ltnw (swapUV st).nu n2 = false → max_bitlen < bitlength (swapUV st).nv →
      phase1Step n2 max_bitlen st = P1Out.cont (reduceStep
        (bitlength (swapUV st).sp - bitlength (swapUV st).nv) (swapUV st))) := by
  refine ⟨?_, ?_, ?_⟩
  · intro h
    simp only [phase1Step, h, if_true]
  · intro h1 h2
    simp only [phase1Step, h1, Bool.false_eq_true, if_false, if_pos h2]
  · intro h1 h2
    simp only [phase1Step, h1, Bool.false_eq_true, if_false,
      if_neg (not_le.2 h2)]

theorem phase2Step_cases (max_bitlen : Nat) (st : LagState) (last stuck : Nat) :
    (bitlength (swapUV st).nv ≤ max_bitlen →
      phase2Step max_bitlen st last stuck
        = P2Out.ret (swapUV st).v0 (swapUV st).v1) ∧
    (max_bitlen < bitlength (swapUV st).nv →
      ((phase2Step max_bitlen st last stuck
          = P2Out.ret (swapUV st).v0 (swapUV st).v1
        ↔ (last < bitlength (swapUV st).sp
            ∨ (last ≤ bitlength (swapUV st).sp ∧ 3 < stuck + 1))) ∧
      (bitlength (swapUV st).sp < last →
        phase2Step max_bitlen st last stuck
          = P2Out.cont (reduceStep (bitlength (swapUV st).sp
              - bitlength (swapUV st).nv) (swapUV st))
              (bitlength (swapUV st).sp) 0) ∧
      (last ≤ bitlength (swapUV st).sp → stuck + 1 ≤ 3 →
        last = bitlength (swapUV st).sp →
        phase2Step max_bitlen st last stuck
          = P2Out.cont (reduceStep (bitlength (swapUV st).sp
              - bitlength (swapUV st).nv) (swapUV st))
              last (stuck + 1)))) := by
  constructor
  · intro h
    simp only [phase2Step, if_pos h]
  · intro hnv
    have hnv' := not_le.2 hnv
    refine ⟨?_, ?_, ?_⟩
    · constructor
      · intro h
        by_cases hge : last ≤ bitlength (swapUV st).sp
        · by_cases hguard : last < bitlength (swapUV st).sp ∨ 3 < stuck + 1
          · rcases hguard with hg | hg
            · exact Or.inl hg
            · exact Or.inr ⟨hge, hg⟩
          · exfalso
            push_neg at hguard
            simp only [phase2Step, if_neg hnv', if_pos hge, Bool.or_eq_true,
              decide_eq_true_eq,
              if_neg (by omega : ¬(last < bitlength (swapUV st).sp ∨ stuck + 1 > 3))] at h
            exact absurd h (by simp)
        · exfalso
          simp only [phase2Step, if_neg hnv', if_neg hge] at h
          exact absurd h (by simp)
      · intro h
        have hge : last ≤ bitlength (swapUV st).sp := by
          rcases h with h | ⟨h, _⟩
          · omega
          · exact h
        have hguard : last < bitlength (swapUV st).sp ∨ stuck + 1 > 3 := by
          rcases h with h | ⟨_, h⟩
          · exact Or.inl h
          · exact Or.inr h
        simp only [phase2Step, if_neg hnv', if_pos hge, Bool.or_eq_true,
          decide_eq_true_eq, if_pos hguard]
    · intro hlt
      simp only [phase2Step, if_neg hnv', if_neg (not_le.2 hlt)]
    · intro hge hstuck heq
      simp only [phase2Step, if_neg hnv', if_pos hge, Bool.or_eq_true,
        decide_eq_true_eq,
        if_neg (by omega : ¬(last < bitlength (swapUV st).sp ∨ stuck + 1 > 3))]

/-- C6 (amended): in a phase-1 iteration the `fits_below` check runs first,
directly after the conditional swap: whenever the (swapped) `nu` fits below
width N2 the engine breaks to phase 2, regardless of `nv`'s bit length;
only otherwise, `bitlength nv ≤ max_bitlen` returns `v`, and otherwise the
size-reduction step runs. -/
theorem c6_phase1_check_order (n2 max_bitlen : Nat) (st : LagState) :
    (ltnw (swapUV st).nu n2 = true →
      phase1Step n2 max_bitlen st = P1Out.brk (swapUV st)) ∧
    (ltnw (swapUV st).nu n2 = false → bitlength (swapUV st).nv ≤ max_bitlen →
      phase1Step n2 max_bitlen st = P1Out.ret (swapUV st).v0 (swapUV st).v1) ∧
    (ltnw (swapUV st).nu n2 = false → max_bitlen < bitlength (swapUV st).nv →
      phase1Step n2 max_bitlen st = P1Out.cont (reduceStep
        (bitlength (swapUV st).sp - bitlength (swapUV st).nv) (swapUV st))) :=
  phase1Step_cases n2 max_bitlen st

/-- C6 counterexample: on `k = 2`, `n = 3` (8 limbs, `max_bitlen = 254`)
the very first phase-1 iteration satisfies `bitlength nv ≤ max_bitlen`,
yet the engine does not return `v` — it breaks to phase 2, because the
`fits_below` check comes first, contrary to the claimed order. -/
theorem c6_counterexample :
    ltnw (swapUV (initState 4 16 [2,0,0,0,0,0,0,0] [3,0,0,0,0,0,0,0])).nu 12 = true ∧
    bitlength (swapUV (initState 4 16 [2,0,0,0,0,0,0,0] [3,0,0,0,0,0,0,0])).nv ≤ 254 ∧
    phase1Step 12 254 (initState 4 16 [2,0,0,0,0,0,0,0] [3,0,0,0,0,0,0,0])
      = P1Out.brk (swapUV (initState 4 16 [2,0,0,0,0,0,0,0] [3,0,0,0,0,0,0,0])) := by
  refine ⟨by decide, by decide, by decide⟩

/-- Witness for C6 on the first phase-1 iteration of `k = 5`, `n = 17`
(`nu = 289` does fit below width N2, so the step breaks to phase 2). -/
theorem c6_phase1_check_order_witness :
    ltnw (swapUV (initState 4 16 [5,0,0,0,0,0,0,0] [17,0,0,0,0,0,0,0])).nu 12 = true ∧
    phase1Step 12 254 (initState 4 16 [5,0,0,0,0,0,0,0] [17,0,0,0,0,0,0,0])
      = P1Out.brk (swapUV (initState 4 16 [5,0,0,0,0,0,0,0] [17,0,0,0,0,0,0,0])) :=
  ⟨by decide,
    (c6_phase1_check_order 12 254 (initState 4 16 [5,0,0,0,0,0,0,0]
      [17,0,0,0,0,0,0,0])).1 (by decide)⟩

/-- C4: once the success return (`bitlength nv ≤ max_bitlen`) does not
fire, the phase-2 stall guard behaves exactly as specified: it returns the
current `v` precisely when the new `bitlength sp` strictly exceeds the
recorded one, or is not strictly smaller and the incremented stall counter
exceeds 3; a strictly smaller `bitlength sp` is recorded with the counter
reset to zero; an equal one keeps the record and increments the counter. -/
theorem c4_phase2_stall_guard (max_bitlen : Nat) (st : LagState)
    (last stuck : Nat) (hnv : max_bitlen < bitlength (swapUV st).nv) :
    (phase2Step max_bitlen st last stuck
        = P2Out.ret (swapUV st).v0 (swapUV st).v1
      ↔ (last < bitlength (swapUV st).sp
          ∨ (last ≤ bitlength (swapUV st).sp ∧ 3 < stuck + 1))) ∧
    (bitlength (swapUV st).sp < last →
      phase2Step max_bitlen st last stuck
        = P2Out.cont (reduceStep (bitlength (swapUV st).sp
            - bitlength (swapUV st).nv) (swapUV st))
            (bitlength (swapUV st).sp) 0) ∧
    (last = bitlength (swapUV st).sp → stuck + 1 ≤ 3 →
      phase2Step max_bitlen st last stuck
        = P2Out.cont (reduceStep (bitlength (swapUV st).sp
            - bitlength (swapUV st).nv) (swapUV st))
            last (stuck + 1)) := by
  obtain ⟨-, h2⟩ := phase2Step_cases max_bitlen st last stuck
  obtain ⟨ha, hb, hc⟩ := h2 hnv
  exact ⟨ha, hb, fun he hs => hc (le_of_eq he) hs he⟩

/-- Witness for C4: on the first phase-2 state of `k = 2`, `n = 3` with
`max_bitlen = 0`, `last_bl_sp = 0`, `stuck = 0`, the guard returns `v`
because `bitlength sp` strictly increased. -/
theorem c4_phase2_stall_guard_witness :
    0 < bitlength (swapUV (initState 4 16 [2,0,0,0,0,0,0,0] [3,0,0,0,0,0,0,0])).nv ∧
    phase2Step 0 (initState 4 16 [2,0,0,0,0,0,0,0] [3,0,0,0,0,0,0,0]) 0 0
      = P2Out.ret (swapUV (initState 4 16 [2,0,0,0,0,0,0,0] [3,0,0,0,0,0,0,0])).v0
          (swapUV (initState 4 16 [2,0,0,0,0,0,0,0] [3,0,0,0,0,0,0,0])).v1 :=
  ⟨by decide,
    (c4_phase2_stall_guard 0 (initState 4 16 [2,0,0,0,0,0,0,0] [3,0,0,0,0,0,0,0])
      0 0 (by decide)).1.mpr (Or.inl (by decide))⟩

theorem reduceStep_first (s : Nat) (st : LagState) :
    (reduceStep s st).first = false := by
  rw [reduceStep]
  by_cases hb : branchIsSub st.first st.sp = true
  · rw [if_pos hb]
  · rw [if_neg hb]
    show st.first = false
    cases hf : st.first
    · rfl
    · rw [hf] at hb
      exact absurd rfl hb

/-- C5: the first-iteration flag is set once at initialization and cleared
exactly by the first executed size-reduction step, in whichever phase it
happens; the very first executed step takes the subtract branch regardless
of `sp`'s sign, and each later step subtracts iff `sp` is nonnegative.
The conditional swap, the break to phase 2 and the shrink
do not touch the flag. -/
theorem c5_first_flag :
    (∀ (n0 n3 : Nat) (k n : List Nat), (initState n0 n3 k n).first = true) ∧
    (∀ sp : List Nat, branchIsSub true sp = true) ∧
    (∀ sp : List Nat, branchIsSub false sp = !(is_negative sp)) ∧
    (∀ (s : Nat) (st : LagState), (reduceStep s st).first = false) ∧
    (∀ (n2 mb : Nat) (st st2 : LagState),
      phase1Step n2 mb st = P1Out.cont st2 → st2.first = false) ∧
    (∀ (n2 mb : Nat) (st st2 : LagState),
      phase1Step n2 mb st = P1Out.brk st2 → st2.first = st.first) ∧
    (∀ (mb : Nat) (st : LagState) (last stuck : Nat) (st2 : LagState) (l2 k2 : Nat),
      phase2Step mb st last stuck = P2Out.cont st2 l2 k2 → st2.first = false) ∧
    (∀ (n2 : Nat) (st : LagState), (shrink n2 st).first = st.first) ∧
    (∀ st : LagState, (swapUV st).first = st.first) := by
  have hswap : ∀ st : LagState, (swapUV st).first = st.first := by
    intro st
    rw [swapUV]
    by_cases h : lt st.nu st.nv = true
    · rw [if_pos h]
    · rw [if_neg h]
  refine ⟨fun _ _ _ _ => rfl, fun _ => rfl, fun _ => rfl, reduceStep_first,
    ?_, ?_, ?_, fun _ _ => rfl, hswap⟩
  · intro n2 mb st st2 h
    rw [phase1Step] at h
    by_cases h1 : ltnw (swapUV st).nu n2 = true
    · rw [if_pos h1] at h
      exact absurd h (by simp)
    · rw [if_neg h1] at h
      by_cases h2 : bitlength (swapUV st).nv ≤ mb
      · rw [if_pos h2] at h
        exact absurd h (by simp)
      · rw [if_neg h2] at h
        have := P1Out.cont.inj h
        rw [← this]
        exact reduceStep_first _ _
  · intro n2 mb st st2 h
    rw [phase1Step] at h
    by_cases h1 : ltnw (swapUV st).nu n2 = true
    · rw [if_pos h1] at h
      have := P1Out.brk.inj h
      rw [← this, hswap]
    · rw [if_neg h1] at h
      by_cases h2 : bitlength (swapUV st).nv ≤ mb
      · rw [if_pos h2] at h
        exact absurd h (by simp)
      · rw [if_neg h2] at h
        exact absurd h (by simp)
  · intro mb st last stuck st2 l2 k2 h
    rw [phase2Step] at h
    by_cases h1 : bitlength (swapUV st).nv ≤ mb
    · rw [if_pos h1] at h
      exact absurd h (by simp)
    · rw [if_neg h1] at h
      by_cases h2 : last ≤ bitlength (swapUV st).sp
      · rw [if_pos h2] at h
        by_cases h3 : (decide (last < bitlength (swapUV st).sp)
            || decide (stuck + 1 > 3)) = true
        · rw [if_pos h3] at h
          exact absurd h (by simp)
        · rw [if_neg h3] at h
          have := (P2Out.cont.inj h).1
          rw [← this]
          exact reduceStep_first _ _
      · rw [if_neg h2] at h
        have := (P2Out.cont.inj h).1
        rw [← this]
        exact reduceStep_first _ _

/-- Witness for C5: a concrete continuing phase-1 step (on the oscillating
state of the divergent run) leaves the flag cleared. -/
theorem c5_first_flag_witness :
    phase1Step 12 0 lagDivergeA = P1Out.cont lagDivergeB ∧
    lagDivergeB.first = false :=
  ⟨by decide, c5_first_flag.2.2.2.2.1 12 0 lagDivergeA lagDivergeB (by decide)⟩

/-! ## Phase-1 non-termination, phase-2 termination -/

set_option maxRecDepth 100000 in
theorem diverge_step_init :
    phase1Step 12 0 (initState 4 16 divergeK divergeN) = P1Out.cont lagDivergeA := by
  decide

set_option maxRecDepth 100000 in
theorem diverge_step_A : phase1Step 12 0 lagDivergeA = P1Out.cont lagDivergeB := by
  decide

set_option maxRecDepth 100000 in
theorem diverge_step_B : phase1Step 12 0 lagDivergeB = P1Out.cont lagDivergeA := by
  decide

/-- The phase-1 loop of the 256-bit engine oscillates forever between
`lagDivergeA` and `lagDivergeB` on the divergent input: no amount of fuel
makes it return. -/
theorem phase1_oscillates : ∀ fuel : Nat,
    phase1Run 12 0 fuel lagDivergeA = none ∧
    phase1Run 12 0 fuel lagDivergeB = none := by
  intro fuel
  induction fuel with
  | zero => exact ⟨rfl, rfl⟩
  | succ f ih =>
      constructor
      · show (match phase1Step 12 0 lagDivergeA with
          | P1Out.ret a b => some (Sum.inl (a, b))
          | P1Out.brk st => some (Sum.inr st)
          | P1Out.cont st => phase1Run 12 0 f st) = none
        rw [diverge_step_A]
        exact ih.2
      · show (match phase1Step 12 0 lagDivergeB with
          | P1Out.ret a b => some (Sum.inl (a, b))
          | P1Out.brk st => some (Sum.inr st)
          | P1Out.cont st => phase1Run 12 0 f st) = none
        rw [diverge_step_B]
        exact ih.1

/-- The 256-bit engine never returns on `k = 0`, `n = 2^192`,
`max_bitlen = 0`, whatever the fuel. -/
theorem lagrange256_diverges : ∀ fuel : Nat,
    lagrange256_vartime fuel divergeK divergeN 0 = none := by
  intro fuel
  have hrun : phase1Run 12 0 fuel (initState 4 16 divergeK divergeN) = none := by
    cases fuel with
    | zero => rfl
    | succ f =>
        show (match phase1Step 12 0 (initState 4 16 divergeK divergeN) with
          | P1Out.ret a b => some (Sum.inl (a, b))
          | P1Out.brk st => some (Sum.inr st)
          | P1Out.cont st => phase1Run 12 0 f st) = none
        rw [diverge_step_init]
        exact (phase1_oscillates f).1
  show (match phase1Run 12 0 fuel (initState 4 16 divergeK divergeN) with
    | none => none
    | some (Sum.inl r) => some r
    | some (Sum.inr st) =>
        let st := shrink 12 st
        phase2Run 0 fuel st (bitlength st.sp) 0) = none
  rw [hrun]

set_option maxRecDepth 1000000 in
/-- C2 counterexample: on the valid input `k = 0 < n = 2^192` (8 limbs)
with `max_bitlen = 0`, the engine does not finish within 200 iterations,
although the initial bit length of `n` is 193 — phase 1 does not terminate
within the claimed bound (indeed, `lagrange256_diverges` shows it loops
forever). -/
theorem c2_counterexample :
    bitlength divergeN = 193 ∧ 193 ≤ 200 ∧
    lagrange256_vartime 200 divergeK divergeN 0 = none := by
  refine ⟨by decide, by decide, by decide⟩

/-- The phase-2 loop always terminates: the measure
`5 * last_bl_sp + 4 - stuck` strictly decreases on every continuing
iteration. -/
theorem phase2Run_terminates (max_bitlen : Nat) :
    ∀ (fuel last stuck : Nat) (st : LagState), stuck ≤ 3 →
      5 * last + 5 ≤ fuel + stuck →
      (phase2Run max_bitlen fuel st last stuck).isSome = true := by
  intro fuel
  induction fuel with
  | zero => intro last stuck st h3 hf; omega
  | succ f ih =>
      intro last stuck st h3 hf
      show (match phase2Step max_bitlen st last stuck with
        | P2Out.ret a b => some (a, b)
        | P2Out.cont st2 l2 k2 => phase2Run max_bitlen f st2 l2 k2).isSome = true
      rcases hstep : phase2Step max_bitlen st last stuck with _ | ⟨st2, l2, k2⟩
      · rfl
      · obtain ⟨hsucc, hguard⟩ := phase2Step_cases max_bitlen st last stuck
        by_cases hnv : bitlength (swapUV st).nv ≤ max_bitlen
        · rw [hsucc hnv] at hstep
          exact absurd hstep (by simp)
        · obtain ⟨hret, hlt, heq⟩ := hguard (by omega)
          by_cases hsp : bitlength (swapUV st).sp < last
          · rw [hlt hsp] at hstep
            obtain ⟨h1, h2, h3'⟩ := P2Out.cont.inj hstep
            subst h1
            subst h2
            subst h3'
            exact ih (bitlength (swapUV st).sp) 0 _ (by omega) (by omega)
          · have hge : last ≤ bitlength (swapUV st).sp := by omega
            by_cases hstk : stuck + 1 ≤ 3
            · by_cases heq2 : last = bitlength (swapUV st).sp
              · rw [heq hge hstk heq2] at hstep
                obtain ⟨h1, h2, h3'⟩ := P2Out.cont.inj hstep
                subst h1
                subst h2
                subst h3'
                exact ih last (stuck + 1) _ (by omega) (by omega)
              · have : phase2Step max_bitlen st last stuck
                    = P2Out.ret (swapUV st).v0 (swapUV st).v1 :=
                  hret.mpr (Or.inl (by omega))
                rw [this] at hstep
                exact absurd hstep (by simp)
            · have : phase2Step max_bitlen st last stuck
                  = P2Out.ret (swapUV st).v0 (swapUV st).v1 :=
                hret.mpr (Or.inr ⟨hge, by omega⟩)
              rw [this] at hstep
              exact absurd hstep (by simp)

/-- C2 (amended): the phase-2 loop terminates on every state, within
`5·last_bl_sp + 5` iterations (the stall counter caps non-improving
iterations); phase 1, however, admits inputs on which it never
terminates, so the original per-`bitlength n` bound fails. -/
theorem c2_phase2_terminates (max_bitlen fuel last stuck : Nat) (st : LagState)
    (h3 : stuck ≤ 3) (hf : 5 * last + 5 ≤ fuel + stuck) :
    (phase2Run max_bitlen fuel st last stuck).isSome = true :=
  phase2Run_terminates max_bitlen fuel last stuck st h3 hf

/-- Witness for C2 on a concrete phase-2 run. -/
theorem c2_phase2_terminates_witness :
    (0:Nat) ≤ 3 ∧ 5 * 3 + 5 ≤ 20 + 0 ∧
    (phase2Run 254 20 (shrink 12 (initState 4 16 [2,0,0,0,0,0,0,0]
      [3,0,0,0,0,0,0,0])) 3 0).isSome = true :=
  ⟨by decide, by decide,
    c2_phase2_terminates 254 20 3 0 _ (by decide) (by decide)⟩

/-! ## Exactness of the Gram values -/

theorem initState_gram (n0 n1 n3 : Nat) (k n : List Nat) (hk : Limbs k)
    (hn : Limbs n) (hkl : k.length = n1) (hnl : n.length = n1) (h1 : 0 < n1)
    (h3 : n3 = 2 * n1) :
    val (initState n0 n3 k n).nu = val n * val n ∧
    val (initState n0 n3 k n).nv = val k * val k + 1 ∧
    val (initState n0 n3 k n).sp = val n * val k ∧
    (initState n0 n3 k n).nu.length = n3 ∧
    (initState n0 n3 k n).nv.length = n3 ∧
    (initState n0 n3 k n).sp.length = n3 ∧
    Limbs (initState n0 n3 k n).nu ∧
    Limbs (initState n0 n3 k n).nv ∧
    Limbs (initState n0 n3 k n).sp := by
  have hnn := umul_val hn hn n3 (by omega)
  have hkk := umul_val hk hk n3 (by omega)
  have hnk := umul_val hn hk n3 (by omega)
  have honel : (1 :: List.replicate (n3 - 1) 0).length = n3 := by
    simp only [List.length_cons, List.length_replicate]
    omega
  have honev : val (1 :: List.replicate (n3 - 1) 0) = 1 := by
    rw [val_cons, val_replicate_zero]
    norm_num
  have honelimbs : Limbs (1 :: List.replicate (n3 - 1) 0) := by
    intro z hz
    simp only [List.mem_cons] at hz
    rcases hz with rfl | hz
    · norm_num
    · rw [List.eq_of_mem_replicate hz]
      norm_num
  have hvk : val k < 2^(32 * n1) := by
    have := val_lt hk
    rwa [hkl] at this
  have hksq : val k * val k + 1 < 2^(32 * n3) := by
    have hpow : (2:Nat)^(32 * n3) = 2^(32 * n1) * 2^(32 * n1) := by
      rw [← pow_add]
      congr 1
      omega
    have h2 : 2 ≤ 2^(32 * n1) := by
      calc 2 = 2^1 := rfl
        _ ≤ 2^(32 * n1) := Nat.pow_le_pow_right (by norm_num) (by omega)
    have hb : val k + 1 ≤ 2^(32 * n1) := hvk
    have hsq : (val k + 1) * (val k + 1) ≤ 2^(32 * n1) * 2^(32 * n1) :=
      Nat.mul_le_mul hb hb
    have h4 : 2 * 2 ≤ 2^(32 * n1) * 2^(32 * n1) := Nat.mul_le_mul h2 h2
    rw [hpow]
    nlinarith [hsq, h4]
  have hnv : val (initState n0 n3 k n).nv = val k * val k + 1 ∧
      (initState n0 n3 k n).nv.length = n3 ∧ Limbs (initState n0 n3 k n).nv := by
    show val (addChain 0 (umul n3 k k) (1 :: List.replicate (n3 - 1) 0))
        = val k * val k + 1 ∧ _ ∧ _
    refine ⟨?_, ?_, ?_⟩
    · rw [addChain_val (by rw [honel, hkk.2.1]) hkk.2.2 honelimbs (by omega),
        hkk.1, honev, hkk.2.1, Nat.add_zero]
      exact Nat.mod_eq_of_lt hksq
    · show (addChain 0 (umul n3 k k) _).length = n3
      rw [addChain_length (by rw [honel, hkk.2.1]) 0, hkk.2.1]
    · exact addChain_limbs hkk.2.2 0
  exact ⟨hnn.1, hnv.1, hnk.1, hnn.2.1, hnv.2.1, hnk.2.1, hnn.2.2, hnv.2.2, hnk.2.2⟩

theorem int_pow_two_mul (s : Nat) : (2:ℤ)^(2*s) = 2^s * 2^s := by
  rw [← pow_add]
  congr 1
  omega

theorem int_pow_succ2 (s : Nat) : (2:ℤ)^(s+1) = 2 * 2^s := by
  rw [pow_succ]
  ring

theorem int_emod_modEq (a M : ℤ) : a % M ≡ a [ZMOD M] :=
  Int.emod_emod_of_dvd a (dvd_refl M)

/-- C3: at initialization the width-N3 Gram values are exactly
`nu = n²`, `nv = k² + 1`, `sp = n·k` (the schoolbook `umul` is exact, no
truncation); and a size-reduction step updates them to exactly the squared
norms and scalar product of the updated mathematical basis vectors,
whenever those exact values are representable at the Gram width (`nu`
unsigned, `sp` two's-complement). -/
theorem c3_gram_exact :
    (∀ (n0 n1 n3 : Nat) (k n : List Nat), Limbs k → Limbs n →
      k.length = n1 → n.length = n1 → 0 < n1 → n3 = 2 * n1 →
      val (initState n0 n3 k n).nu = val n * val n ∧
      val (initState n0 n3 k n).nv = val k * val k + 1 ∧
      val (initState n0 n3 k n).sp = val n * val k) ∧
    (∀ (st : LagState) (s W : Nat) (g g2 : GhostState),
      g2 = ghostReduce s (branchIsSub st.first st.sp) g →
      st.nu.length = W → st.nv.length = W → st.sp.length = W → 0 < W →
      Limbs st.nu → Limbs st.nv → Limbs st.sp →
      (val st.nu : ℤ) = g.gu0^2 + g.gu1^2 →
      (val st.nv : ℤ) = g.gv0^2 + g.gv1^2 →
      ival st.sp = g.gu0 * g.gv0 + g.gu1 * g.gv1 →
      (g2.gu0^2 + g2.gu1^2 < 2^(32*W) →
        (val (reduceStep s st).nu : ℤ) = g2.gu0^2 + g2.gu1^2) ∧
      ((val (reduceStep s st).nv : ℤ) = g2.gv0^2 + g2.gv1^2) ∧
      (-(2:ℤ)^(32*W-1) ≤ g2.gu0 * g2.gv0 + g2.gu1 * g2.gv1 →
        g2.gu0 * g2.gv0 + g2.gu1 * g2.gv1 < 2^(32*W-1) →
        ival (reduceStep s st).sp = g2.gu0 * g2.gv0 + g2.gu1 * g2.gv1)) := by
  constructor
  · intro n0 n1 n3 k n hk hn hkl hnl h1 h3
    obtain ⟨a, b, c, -⟩ := initState_gram n0 n1 n3 k n hk hn hkl hnl h1 h3
    exact ⟨a, b, c⟩
  · intro st s W g g2 hg2 hnul hnvl hspl hW hnu hnv hsp hNU hNV hSP
    have hspne : st.sp ≠ [] := by
      intro h
      rw [h] at hspl
      simp at hspl
      omega
    have hspcong : (val st.sp : ℤ) ≡ g.gu0 * g.gv0 + g.gu1 * g.gv1
        [ZMOD (2:ℤ)^(32*W)] := by
      have h1 := ival_congr st.sp
      rw [hSP, hspl] at h1
      exact h1
    have haddlen : (set_add_shifted st.nu st.nv (2*s)).length = W := by
      rw [set_add_shifted_length (by rw [hnvl, hnul]) _, hnul]
    have haddlimbs : Limbs (set_add_shifted st.nu st.nv (2*s)) :=
      set_add_shifted_limbs hnu _
    have hXc : (val (set_add_shifted st.nu st.nv (2*s)) : ℤ)
        ≡ g.gu0^2 + g.gu1^2 + 2^(2*s) * (g.gv0^2 + g.gv1^2)
          [ZMOD (2:ℤ)^(32*W)] := by
      have hX : (val (set_add_shifted st.nu st.nv (2*s)) : ℤ)
          = ((val st.nu : ℤ) + 2^(2*s) * (val st.nv : ℤ)) % 2^(32*W) := by
        rw [set_add_shifted_val (by rw [hnvl, hnul]) hnu hnv (2*s), hnul]
        push_cast
        ring_nf
      rw [hX, hNU, hNV]
      exact int_emod_modEq _ _
    by_cases hbr : branchIsSub st.first st.sp = true
    · have hred : reduceStep s st =
          { u0 := set_sub_shifted st.u0 st.v0 s,
            u1 := set_sub_shifted st.u1 st.v1 s,
            v0 := st.v0, v1 := st.v1,
            nu := set_sub_shifted (set_add_shifted st.nu st.nv (2 * s)) st.sp (s + 1),
            nv := st.nv,
            sp := set_sub_shifted st.sp st.nv s,
            first := false } := by
        rw [reduceStep, if_pos hbr]
      have hgr : g2 = ⟨g.gu0 - 2^s * g.gv0, g.gu1 - 2^s * g.gv1, g.gv0, g.gv1⟩ := by
        rw [hg2, ghostReduce, if_pos hbr]
      subst hgr
      rw [hred]
      refine ⟨?_, ?_, ?_⟩
      · intro hTlt
        dsimp only at hTlt ⊢
        have hstep1 : (val (set_sub_shifted (set_add_shifted st.nu st.nv (2 * s))
              st.sp (s + 1)) : ℤ)
            = ((val (set_add_shifted st.nu st.nv (2*s)) : ℤ)
                - 2^(s+1) * (val st.sp : ℤ)) % 2^(32*W) := by
          rw [set_sub_shifted_val (by rw [hspl, haddlen]) haddlimbs hsp (s+1),
            haddlen]
        have hcong : ((val (set_add_shifted st.nu st.nv (2*s)) : ℤ)
              - 2^(s+1) * (val st.sp : ℤ))
            ≡ (g.gu0 - 2^s * g.gv0)^2 + (g.gu1 - 2^s * g.gv1)^2
              [ZMOD (2:ℤ)^(32*W)] := by
          have h2 := hXc.sub (Int.ModEq.mul_left ((2:ℤ)^(s+1)) hspcong)
          have hring : g.gu0^2 + g.gu1^2 + 2^(2*s) * (g.gv0^2 + g.gv1^2)
              - 2^(s+1) * (g.gu0 * g.gv0 + g.gu1 * g.gv1)
              = (g.gu0 - 2^s * g.gv0)^2 + (g.gu1 - 2^s * g.gv1)^2 := by
            rw [int_pow_two_mul, int_pow_succ2]
            ring
          rw [hring] at h2
          exact h2
        rw [hstep1, hcong]
        exact Int.emod_eq_of_lt (by positivity) hTlt
      · dsimp only
        exact hNV
      · intro hlo hhi
        dsimp only at hlo hhi ⊢
        have hlen2 : (set_sub_shifted st.sp st.nv s).length = W := by
          rw [set_sub_shifted_length (by rw [hnvl, hspl]) _, hspl]
        have hlimbs2 : Limbs (set_sub_shifted st.sp st.nv s) :=
          set_sub_shifted_limbs hsp _
        have hne2 : set_sub_shifted st.sp st.nv s ≠ [] := by
          intro h
          rw [h] at hlen2
          simp at hlen2
          omega
        have hstep2 : (val (set_sub_shifted st.sp st.nv s) : ℤ)
            = ((val st.sp : ℤ) - 2^s * (val st.nv : ℤ)) % 2^(32*W) := by
          rw [set_sub_shifted_val (by rw [hnvl, hspl]) hsp hnv s, hspl]
        have hcong2 : (val (set_sub_shifted st.sp st.nv s) : ℤ)
            ≡ (g.gu0 - 2^s * g.gv0) * g.gv0 + (g.gu1 - 2^s * g.gv1) * g.gv1
              [ZMOD (2:ℤ)^(32*W)] := by
          rw [hstep2]
          have h2 := (int_emod_modEq ((val st.sp : ℤ) - 2^s * (val st.nv : ℤ))
            ((2:ℤ)^(32*W))).trans
            (hspcong.sub (Int.ModEq.mul_left ((2:ℤ)^s) (by rw [hNV])))
          have hring : g.gu0 * g.gv0 + g.gu1 * g.gv1
              - 2^s * (g.gv0^2 + g.gv1^2)
              = (g.gu0 - 2^s * g.gv0) * g.gv0 + (g.gu1 - 2^s * g.gv1) * g.gv1 := by
            ring
          rw [hring] at h2
          exact h2
        rw [← hlen2] at hlo hhi
        exact (ival_eq_iff hlimbs2 hne2 (by rw [hlen2]; exact hcong2)).2 ⟨hlo, hhi⟩
    · have hbr' : branchIsSub st.first st.sp = false := by
        cases h : branchIsSub st.first st.sp
        · rfl
        · exact absurd h hbr
      have hred : reduceStep s st =
          { u0 := set_add_shifted st.u0 st.v0 s,
            u1 := set_add_shifted st.u1 st.v1 s,
            v0 := st.v0, v1 := st.v1,
            nu := set_add_shifted (set_add_shifted st.nu st.nv (2 * s)) st.sp (s + 1),
            nv := st.nv,
            sp := set_add_shifted st.sp st.nv s,
            first := st.first } := by
        rw [reduceStep, if_neg hbr]
      have hgr : g2 = ⟨g.gu0 + 2^s * g.gv0, g.gu1 + 2^s * g.gv1, g.gv0, g.gv1⟩ := by
        rw [hg2, ghostReduce, hbr', if_neg (by simp)]
      subst hgr
      rw [hred]
      refine ⟨?_, ?_, ?_⟩
      · intro hTlt
        dsimp only at hTlt ⊢
        have hstep1 : val (set_add_shifted (set_add_shifted st.nu st.nv (2 * s))
              st.sp (s + 1))
            = (val (set_add_shifted st.nu st.nv (2*s))
                + 2^(s+1) * val st.sp) % 2^(32*W) := by
          rw [set_add_shifted_val (by rw [hspl, haddlen]) haddlimbs hsp (s+1),
            haddlen]
        have hcong : ((val (set_add_shifted st.nu st.nv (2*s)) : ℤ)
              + 2^(s+1) * (val st.sp : ℤ))
            ≡ (g.gu0 + 2^s * g.gv0)^2 + (g.gu1 + 2^s * g.gv1)^2
              [ZMOD (2:ℤ)^(32*W)] := by
          have h2 := hXc.add (Int.ModEq.mul_left ((2:ℤ)^(s+1)) hspcong)
          have hring : g.gu0^2 + g.gu1^2 + 2^(2*s) * (g.gv0^2 + g.gv1^2)
              + 2^(s+1) * (g.gu0 * g.gv0 + g.gu1 * g.gv1)
              = (g.gu0 + 2^s * g.gv0)^2 + (g.gu1 + 2^s * g.gv1)^2 := by
            rw [int_pow_two_mul, int_pow_succ2]
            ring
          rw [hring] at h2
          exact h2
        have hcast : (val (set_add_shifted (set_add_shifted st.nu st.nv (2 * s))
              st.sp (s + 1)) : ℤ)
            = ((val (set_add_shifted st.nu st.nv (2*s)) : ℤ)
                + 2^(s+1) * (val st.sp : ℤ)) % 2^(32*W) := by
          rw [hstep1]
          push_cast
          ring_nf
        rw [hcast, hcong]
        exact Int.emod_eq_of_lt (by positivity) hTlt
      · dsimp only
        exact hNV
      · intro hlo hhi
        dsimp only at hlo hhi ⊢
        have hlen2 : (set_add_shifted st.sp st.nv s).length = W := by
          rw [set_add_shifted_length (by rw [hnvl, hspl]) _, hspl]
        have hlimbs2 : Limbs (set_add_shifted st.sp st.nv s) :=
          set_add_shifted_limbs hsp _
        have hne2 : set_add_shifted st.sp st.nv s ≠ [] := by
          intro h
          rw [h] at hlen2
          simp at hlen2
          omega
        have hstep2 : (val (set_add_shifted st.sp st.nv s) : ℤ)
            = ((val st.sp : ℤ) + 2^s * (val st.nv : ℤ)) % 2^(32*W) := by
          rw [set_add_shifted_val (by rw [hnvl, hspl]) hsp hnv s, hspl]
          push_cast
          ring_nf
        have hcong2 : (val (set_add_shifted st.sp st.nv s) : ℤ)
            ≡ (g.gu0 + 2^s * g.gv0) * g.gv0 + (g.gu1 + 2^s * g.gv1) * g.gv1
              [ZMOD (2:ℤ)^(32*W)] := by
          rw [hstep2]
          have h2 := (int_emod_modEq ((val st.sp : ℤ) + 2^s * (val st.nv : ℤ))
            ((2:ℤ)^(32*W))).trans
            (hspcong.add (Int.ModEq.mul_left ((2:ℤ)^s) (by rw [hNV])))
          have hring : g.gu0 * g.gv0 + g.gu1 * g.gv1
              + 2^s * (g.gv0^2 + g.gv1^2)
              = (g.gu0 + 2^s * g.gv0) * g.gv0 + (g.gu1 + 2^s * g.gv1) * g.gv1 := by
            ring
          rw [hring] at h2
          exact h2
        rw [← hlen2] at hlo hhi
        exact (ival_eq_iff hlimbs2 hne2 (by rw [hlen2]; exact hcong2)).2 ⟨hlo, hhi⟩

/-- Witness for C3 at a concrete instance: width-2 scalars `k = 3`, `n = 7`
for the init part, and a one-limb state with ghost basis
`(2, 1), (1, -1)` taking a subtraction step with `s = 0` for the step part. -/
theorem c3_gram_exact_witness :
    (val (initState 4 4 [3, 0] [7, 0]).nu = val [7, 0] * val [7, 0] ∧
     val (initState 4 4 [3, 0] [7, 0]).nv = val [3, 0] * val [3, 0] + 1 ∧
     val (initState 4 4 [3, 0] [7, 0]).sp = val [7, 0] * val [3, 0]) ∧
    ((val (reduceStep 0 ⟨[0], [0], [0], [0], [5], [2], [1], true⟩).nu : ℤ)
        = (1:ℤ)^2 + (2:ℤ)^2 ∧
     (val (reduceStep 0 ⟨[0], [0], [0], [0], [5], [2], [1], true⟩).nv : ℤ)
        = (1:ℤ)^2 + (-1:ℤ)^2 ∧
     ival (reduceStep 0 ⟨[0], [0], [0], [0], [5], [2], [1], true⟩).sp
        = (1:ℤ) * 1 + 2 * (-1:ℤ)) := by
  constructor
  · exact c3_gram_exact.1 4 2 4 [3, 0] [7, 0]
      (by intro x hx; simp only [List.mem_cons, List.not_mem_nil, or_false] at hx
          rcases hx with rfl | rfl <;> norm_num)
      (by intro x hx; simp only [List.mem_cons, List.not_mem_nil, or_false] at hx
          rcases hx with rfl | rfl <;> norm_num) rfl rfl (by decide) rfl
  · have h := c3_gram_exact.2 ⟨[0], [0], [0], [0], [5], [2], [1], true⟩ 0 1
      ⟨2, 1, 1, -1⟩ ⟨1, 2, 1, -1⟩ (by decide) rfl rfl rfl (by decide)
      (by intro x hx; simp only [List.mem_cons, List.not_mem_nil, or_false] at hx
          rcases hx with rfl; norm_num)
      (by intro x hx; simp only [List.mem_cons, List.not_mem_nil, or_false] at hx
          rcases hx with rfl; norm_num)
      (by intro x hx; simp only [List.mem_cons, List.not_mem_nil, or_false] at hx
          rcases hx with rfl; norm_num)
      (by decide) (by decide) (by decide)
    exact ⟨h.1 (by decide), h.2.1, h.2.2 (by decide) (by decide)⟩

theorem limbs_of_all {a : List Nat} (h : a.all (fun x => decide (x < 2^32)) = true) :
    Limbs a := by
  intro x hx
  have := List.all_eq_true.1 h x hx
  simpa using this

/-- C10: the coordinates are maintained only modulo `2^(32·n0)`:
initialization stores the low `n0` limbs of `n` and `k`, each stored
coordinate stays congruent modulo `2^(32·n0)` to the exact mathematical
coordinate through the swap and through the wrapping size-reduction
update, and the stored `v` reads back (as two's complement) to the exact
coordinates precisely when those fit in `32·n0` signed bits. -/
theorem c10_coord_truncation :
    (∀ (n0 n3 : Nat) (k n : List Nat), Limbs k → Limbs n →
      n0 ≤ k.length → n0 ≤ n.length →
      (initState n0 n3 k n).u0 = n.take n0 ∧
      (initState n0 n3 k n).v0 = k.take n0 ∧
      coordInv n0 (initState n0 n3 k n) ⟨(val n : ℤ), 0, (val k : ℤ), 1⟩) ∧
    (∀ (n0 : Nat) (st : LagState) (g : GhostState),
      coordInv n0 st g → coordInv n0 (swapUV st) (ghostSwapUV st g)) ∧
    (∀ (n0 s : Nat) (st : LagState) (g : GhostState),
      CoordLen n0 st → CoordLimbs st → coordInv n0 st g →
      coordInv n0 (reduceStep s st) (ghostReduce s (branchIsSub st.first st.sp) g)) ∧
    (∀ (n0 : Nat) (st : LagState) (g : GhostState), 0 < n0 →
      CoordLen n0 st → CoordLimbs st → coordInv n0 st g →
      -(2:ℤ)^(32 * n0 - 1) ≤ g.gv0 → g.gv0 < 2^(32 * n0 - 1) →
      -(2:ℤ)^(32 * n0 - 1) ≤ g.gv1 → g.gv1 < 2^(32 * n0 - 1) →
      ival st.v0 = g.gv0 ∧ ival st.v1 = g.gv1) := by
  refine ⟨?_, ?_, ?_, ?_⟩
  · intro n0 n3 k n hk hn hkl hnl
    refine ⟨rfl, rfl, ?_, ?_, ?_, ?_⟩
    · show ((val (n.take n0) : ℕ) : ℤ) ≡ (val n : ℤ) [ZMOD (2:ℤ)^(32 * n0)]
      rw [val_take_le hn hnl]
      push_cast [Int.ofNat_emod]
      exact int_emod_modEq _ _
    · show ((val (List.replicate n0 0) : ℕ) : ℤ) ≡ 0 [ZMOD (2:ℤ)^(32 * n0)]
      rw [val_replicate_zero]
      simpa using Int.ModEq.refl (0:ℤ)
    · show ((val (k.take n0) : ℕ) : ℤ) ≡ (val k : ℤ) [ZMOD (2:ℤ)^(32 * n0)]
      rw [val_take_le hk hkl]
      push_cast [Int.ofNat_emod]
      exact int_emod_modEq _ _
    · show ((val (1 :: List.replicate (n0 - 1) 0) : ℕ) : ℤ) ≡ 1
        [ZMOD (2:ℤ)^(32 * n0)]
      rw [val_cons, val_replicate_zero]
      simpa using Int.ModEq.refl (1:ℤ)
  · intro n0 st g h
    obtain ⟨h1, h2, h3, h4⟩ := h
    rw [swapUV, ghostSwapUV]
    by_cases hlt : lt st.nu st.nv = true
    · rw [if_pos hlt, if_pos hlt]
      exact ⟨h3, h4, h1, h2⟩
    · rw [if_neg hlt, if_neg hlt]
      exact ⟨h1, h2, h3, h4⟩
  · intro n0 s st g hlen hlimbs hinv
    obtain ⟨hl1, hl2, hl3, hl4⟩ := hlen
    obtain ⟨hb1, hb2, hb3, hb4⟩ := hlimbs
    obtain ⟨h1, h2, h3, h4⟩ := hinv
    by_cases hbr : branchIsSub st.first st.sp = true
    · rw [reduceStep, if_pos hbr, ghostReduce, if_pos hbr]
      refine ⟨?_, ?_, h3, h4⟩
      · show (val (set_sub_shifted st.u0 st.v0 s) : ℤ)
            ≡ g.gu0 - 2^s * g.gv0 [ZMOD (2:ℤ)^(32 * n0)]
        have hv : (val (set_sub_shifted st.u0 st.v0 s) : ℤ)
            = ((val st.u0 : ℤ) - 2^s * val st.v0) % 2^(32 * n0) := by
          rw [set_sub_shifted_val (by rw [hl3, hl1]) hb1 hb3 s, hl1]
        rw [hv]
        exact (int_emod_modEq _ _).trans (h1.sub (Int.ModEq.mul_left _ h3))
      · show (val (set_sub_shifted st.u1 st.v1 s) : ℤ)
            ≡ g.gu1 - 2^s * g.gv1 [ZMOD (2:ℤ)^(32 * n0)]
        have hv : (val (set_sub_shifted st.u1 st.v1 s) : ℤ)
            = ((val st.u1 : ℤ) - 2^s * val st.v1) % 2^(32 * n0) := by
          rw [set_sub_shifted_val (by rw [hl4, hl2]) hb2 hb4 s, hl2]
        rw [hv]
        exact (int_emod_modEq _ _).trans (h2.sub (Int.ModEq.mul_left _ h4))
    · rw [reduceStep, if_neg hbr, ghostReduce, if_neg hbr]
      refine ⟨?_, ?_, h3, h4⟩
      · show (val (set_add_shifted st.u0 st.v0 s) : ℤ)
            ≡ g.gu0 + 2^s * g.gv0 [ZMOD (2:ℤ)^(32 * n0)]
        have hv : (val (set_add_shifted st.u0 st.v0 s) : ℤ)
            = ((val st.u0 : ℤ) + 2^s * val st.v0) % 2^(32 * n0) := by
          rw [set_add_shifted_val (by rw [hl3, hl1]) hb1 hb3 s, hl1]
          push_cast
          ring_nf
        rw [hv]
        exact (int_emod_modEq _ _).trans (h1.add (Int.ModEq.mul_left _ h3))
      · show (val (set_add_shifted st.u1 st.v1 s) : ℤ)
            ≡ g.gu1 + 2^s * g.gv1 [ZMOD (2:ℤ)^(32 * n0)]
        have hv : (val (set_add_shifted st.u1 st.v1 s) : ℤ)
            = ((val st.u1 : ℤ) + 2^s * val st.v1) % 2^(32 * n0) := by
          rw [set_add_shifted_val (by rw [hl4, hl2]) hb2 hb4 s, hl2]
          push_cast
          ring_nf
        rw [hv]
        exact (int_emod_modEq _ _).trans (h2.add (Int.ModEq.mul_left _ h4))
  · intro n0 st g hn0 hlen hlimbs hinv hlo0 hhi0 hlo1 hhi1
    obtain ⟨-, -, hl3, hl4⟩ := hlen
    obtain ⟨-, -, hb3, hb4⟩ := hlimbs
    obtain ⟨-, -, h3, h4⟩ := hinv
    have hne3 : st.v0 ≠ [] := by
      intro h
      rw [h] at hl3
      simp at hl3
      omega
    have hne4 : st.v1 ≠ [] := by
      intro h
      rw [h] at hl4
      simp at hl4
      omega
    constructor
    · exact (ival_eq_iff hb3 hne3 (by rw [hl3]; exact h3)).2
        ⟨by rw [hl3]; exact hlo0, by rw [hl3]; exact hhi0⟩
    · exact (ival_eq_iff hb4 hne4 (by rw [hl4]; exact h4)).2
        ⟨by rw [hl4]; exact hlo1, by rw [hl4]; exact hhi1⟩

/-- Witness for C10: initialization at width `n0 = 1` on `k = [3, 9]`,
`n = [7, 4]`, and the swap, reduction and readback parts on a concrete
one-limb state with ghost coordinates `(5, 0, 3, 1)`. -/
theorem c10_coord_truncation_witness :
    ((initState 1 2 [3, 9] [7, 4]).u0 = [7, 4].take 1 ∧
     (initState 1 2 [3, 9] [7, 4]).v0 = [3, 9].take 1 ∧
     coordInv 1 (initState 1 2 [3, 9] [7, 4])
       ⟨(val [7, 4] : ℤ), 0, (val [3, 9] : ℤ), 1⟩) ∧
    coordInv 1 (swapUV ⟨[5], [0], [3], [1], [1], [2], [0], true⟩)
      (ghostSwapUV ⟨[5], [0], [3], [1], [1], [2], [0], true⟩ ⟨5, 0, 3, 1⟩) ∧
    coordInv 1 (reduceStep 0 ⟨[5], [0], [3], [1], [1], [2], [0], true⟩)
      (ghostReduce 0 (branchIsSub true [0]) ⟨5, 0, 3, 1⟩) ∧
    (ival ([3] : List Nat) = 3 ∧ ival ([1] : List Nat) = 1) := by
  refine ⟨?_, ?_, ?_, ?_⟩
  · exact c10_coord_truncation.1 1 2 [3, 9] [7, 4] (limbs_of_all (by decide))
      (limbs_of_all (by decide)) (by decide) (by decide)
  · exact c10_coord_truncation.2.1 1 ⟨[5], [0], [3], [1], [1], [2], [0], true⟩
      ⟨5, 0, 3, 1⟩ ⟨by decide, by decide, by decide, by decide⟩
  · exact c10_coord_truncation.2.2.1 1 0 ⟨[5], [0], [3], [1], [1], [2], [0], true⟩
      ⟨5, 0, 3, 1⟩ ⟨rfl, rfl, rfl, rfl⟩
      ⟨limbs_of_all (by decide), limbs_of_all (by decide),
       limbs_of_all (by decide), limbs_of_all (by decide)⟩
      ⟨by decide, by decide, by decide, by decide⟩
  · exact c10_coord_truncation.2.2.2 1 ⟨[5], [0], [3], [1], [1], [2], [0], true⟩
      ⟨5, 0, 3, 1⟩ (by decide) ⟨rfl, rfl, rfl, rfl⟩
      ⟨limbs_of_all (by decide), limbs_of_all (by decide),
       limbs_of_all (by decide), limbs_of_all (by decide)⟩
      ⟨by decide, by decide, by decide, by decide⟩
      (by decide) (by decide) (by decide) (by decide)

theorem swapUV_coordLen {n0 : Nat} {st : LagState} (h : CoordLen n0 st) :
    CoordLen n0 (swapUV st) := by
  obtain ⟨h1, h2, h3, h4⟩ := h
  rw [swapUV]
  by_cases hlt : lt st.nu st.nv = true
  · rw [if_pos hlt]
    exact ⟨h3, h4, h1, h2⟩
  · rw [if_neg hlt]
    exact ⟨h1, h2, h3, h4⟩

theorem reduceStep_coordLen {n0 : Nat} (s : Nat) {st : LagState}
    (h : CoordLen n0 st) : CoordLen n0 (reduceStep s st) := by
  obtain ⟨h1, h2, h3, h4⟩ := h
  rw [reduceStep]
  by_cases hbr : branchIsSub st.first st.sp = true
  · rw [if_pos hbr]
    exact ⟨(set_sub_shifted_length (by rw [h3, h1]) s).trans h1,
      (set_sub_shifted_length (by rw [h4, h2]) s).trans h2, h3, h4⟩
  · rw [if_neg hbr]
    exact ⟨(set_add_shifted_length (by rw [h3, h1]) s).trans h1,
      (set_add_shifted_length (by rw [h4, h2]) s).trans h2, h3, h4⟩

theorem phase1Step_coordLen {n0 : Nat} (n2 mb : Nat) {st : LagState}
    (h : CoordLen n0 st) :
    (∀ a b, phase1Step n2 mb st = .ret a b → a.length = n0 ∧ b.length = n0) ∧
    (∀ st2, phase1Step n2 mb st = .brk st2 → CoordLen n0 st2) ∧
    (∀ st2, phase1Step n2 mb st = .cont st2 → CoordLen n0 st2) := by
  have hsw := swapUV_coordLen h
  refine ⟨?_, ?_, ?_⟩
  · intro a b heq
    simp only [phase1Step] at heq
    split at heq
    · simp at heq
    · split at heq
      · obtain ⟨ha, hb⟩ := P1Out.ret.inj heq
        exact ⟨ha ▸ hsw.2.2.1, hb ▸ hsw.2.2.2⟩
      · simp at heq
  · intro st2 heq
    simp only [phase1Step] at heq
    split at heq
    · exact (P1Out.brk.inj heq) ▸ hsw
    · split at heq
      · simp at heq
      · simp at heq
  · intro st2 heq
    simp only [phase1Step] at heq
    split at heq
    · simp at heq
    · split at heq
      · simp at heq
      · exact (P1Out.cont.inj heq) ▸ reduceStep_coordLen _ hsw

theorem phase2Step_coordLen {n0 : Nat} (mb last stuck : Nat) {st : LagState}
    (h : CoordLen n0 st) :
    (∀ a b, phase2Step mb st last stuck = .ret a b →
      a.length = n0 ∧ b.length = n0) ∧
    (∀ st2 l2 s2, phase2Step mb st last stuck = .cont st2 l2 s2 →
      CoordLen n0 st2) := by
  have hsw := swapUV_coordLen h
  constructor
  · intro a b heq
    simp only [phase2Step] at heq
    split at heq
    · obtain ⟨ha, hb⟩ := P2Out.ret.inj heq
      exact ⟨ha ▸ hsw.2.2.1, hb ▸ hsw.2.2.2⟩
    · split at heq
      · split at heq
        · obtain ⟨ha, hb⟩ := P2Out.ret.inj heq
          exact ⟨ha ▸ hsw.2.2.1, hb ▸ hsw.2.2.2⟩
        · simp at heq
      · simp at heq
  · intro st2 l2 s2 heq
    simp only [phase2Step] at heq
    split at heq
    · simp at heq
    · split at heq
      · split at heq
        · simp at heq
        · exact (P2Out.cont.inj heq).1 ▸ reduceStep_coordLen _ hsw
      · exact (P2Out.cont.inj heq).1 ▸ reduceStep_coordLen _ hsw

theorem phase1Run_coordLen {n0 : Nat} (n2 mb : Nat) : ∀ (fuel : Nat)
    (st : LagState), CoordLen n0 st →
    (∀ a b, phase1Run n2 mb fuel st = some (Sum.inl (a, b)) →
      a.length = n0 ∧ b.length = n0) ∧
    (∀ st2, phase1Run n2 mb fuel st = some (Sum.inr st2) → CoordLen n0 st2) := by
  intro fuel
  induction fuel with
  | zero =>
      intro st h
      constructor
      · intro a b heq
        simp [phase1Run] at heq
      · intro st2 heq
        simp [phase1Run] at heq
  | succ f ih =>
      intro st h
      have hstep := phase1Step_coordLen n2 mb h
      constructor
      · intro a b heq
        simp only [phase1Run] at heq
        rcases hcase : phase1Step n2 mb st with ⟨x, y⟩ | st2 | st2 <;>
          rw [hcase] at heq
        · simp only [Option.some.injEq, Sum.inl.injEq, Prod.mk.injEq] at heq
          obtain ⟨hx, hy⟩ := heq
          obtain ⟨ha, hb⟩ := hstep.1 x y hcase
          exact ⟨hx ▸ ha, hy ▸ hb⟩
        · simp at heq
        · exact (ih st2 (hstep.2.2 st2 hcase)).1 a b heq
      · intro st2 heq
        simp only [phase1Run] at heq
        rcases hcase : phase1Step n2 mb st with ⟨x, y⟩ | st3 | st3 <;>
          rw [hcase] at heq
        · simp at heq
        · simp only [Option.some.injEq, Sum.inr.injEq] at heq
          exact heq ▸ hstep.2.1 st3 hcase
        · exact (ih st3 (hstep.2.2 st3 hcase)).2 st2 heq

theorem phase2Run_coordLen {n0 : Nat} (mb : Nat) : ∀ (fuel : Nat)
    (st : LagState) (last stuck : Nat), CoordLen n0 st →
    ∀ a b, phase2Run mb fuel st last stuck = some (a, b) →
      a.length = n0 ∧ b.length = n0 := by
  intro fuel
  induction fuel with
  | zero =>
      intro st last stuck h a b heq
      simp [phase2Run] at heq
  | succ f ih =>
      intro st last stuck h a b heq
      have hstep := phase2Step_coordLen mb last stuck h
      simp only [phase2Run] at heq
      rcases hcase : phase2Step mb st last stuck with ⟨x, y⟩ | ⟨st2, l2, s2⟩ <;>
        rw [hcase] at heq
      · simp only [Option.some.injEq, Prod.mk.injEq] at heq
        obtain ⟨hx, hy⟩ := heq
        obtain ⟨ha, hb⟩ := hstep.1 x y hcase
        exact ⟨hx ▸ ha, hy ▸ hb⟩
      · exact ih st2 l2 s2 (hstep.2 st2 l2 s2 hcase) a b heq

theorem lagrangeEngine_coordLen {n0 n2 n3 : Nat} {k n : List Nat} (h0 : 0 < n0)
    (hk : n0 ≤ k.length) (hn : n0 ≤ n.length) (fuel mb : Nat) {a b : List Nat}
    (h : lagrangeEngine n0 n2 n3 fuel k n mb = some (a, b)) :
    a.length = n0 ∧ b.length = n0 := by
  have hinit : CoordLen n0 (initState n0 n3 k n) := by
    refine ⟨?_, ?_, ?_, ?_⟩
    · simp only [initState, List.length_take]
      omega
    · simp only [initState, List.length_replicate]
    · simp only [initState, List.length_take]
      omega
    · simp only [initState, List.length_cons, List.length_replicate]
      omega
  rw [lagrangeEngine] at h
  rcases hrun : phase1Run n2 mb fuel (initState n0 n3 k n) with _ | r
  · rw [hrun] at h
    simp at h
  · rw [hrun] at h
    rcases r with ⟨x, y⟩ | st2
    · simp only [Option.some.injEq, Prod.mk.injEq] at h
      obtain ⟨hx, hy⟩ := h
      obtain ⟨ha, hb⟩ :=
        (phase1Run_coordLen n2 mb fuel _ hinit).1 x y hrun
      exact ⟨hx ▸ ha, hy ▸ hb⟩
    · have hbrk : CoordLen n0 st2 :=
        (phase1Run_coordLen n2 mb fuel _ hinit).2 st2 hrun
      exact phase2Run_coordLen mb fuel (shrink n2 st2) _ 0 hbrk a b h

theorem copyOut_ne_unimplemented (c0len c1len : Nat)
    (o : Option (List Nat × List Nat)) :
    copyOut c0len c1len o ≠ .error .unimplemented := by
  rcases o with _ | ⟨a, b⟩
  · simp [copyOut]
  · rw [copyOut]
    split
    · simp
    · simp

theorem copyOut_no_panic {c0len c1len : Nat} {o : Option (List Nat × List Nat)}
    (h : ∀ a b, o = some (a, b) → c0len ≤ a.length ∧ c1len ≤ b.length) :
    copyOut c0len c1len o ≠ .error .panicked := by
  rcases o with _ | ⟨a, b⟩
  · simp [copyOut]
  · obtain ⟨h1, h2⟩ := h a b rfl
    rw [copyOut, if_neg]
    · simp
    · simp only [Bool.or_eq_true, decide_eq_true_eq, not_or, not_lt]
      exact ⟨h1, h2⟩

theorem copyOut_engine_no_panic {n0 n2 n3 fuel mb c0len c1len : Nat}
    {k n : List Nat} (h0 : 0 < n0) (hk : n0 ≤ k.length) (hn : n0 ≤ n.length)
    (hc0 : c0len ≤ n0) (hc1 : c1len ≤ n0) :
    copyOut c0len c1len (lagrangeEngine n0 n2 n3 fuel k n mb)
      ≠ .error .panicked := by
  apply copyOut_no_panic
  intro a b hab
  obtain ⟨ha, hb⟩ := lagrangeEngine_coordLen h0 hk hn fuel mb hab
  omega

/-- C7: the dispatch faults of `lagrange_vartime`: a length of `n` outside
[8, 16] is rejected loudly (`unimplemented!`), a `k` longer than the 16-limb
working buffer panics in `copy_from_slice`, and for in-range lengths with
output slices no longer than the selected engine's coordinate width
(`engineCoordWidth n.length`) the function never reaches `unimplemented!`
and never panics — but no precondition on the values is checked: `k ≥ n`
and an absurd `max_bitlen` are accepted silently (see the
counterexample). -/
theorem c7_dispatch_faults :
    (∀ (fuel mb c0len c1len : Nat) (k n : List Nat),
      n.length < 8 ∨ 16 < n.length →
      lagrange_vartime fuel k n mb c0len c1len = .error .unimplemented) ∧
    (∀ (fuel mb c0len c1len : Nat) (k n : List Nat),
      8 ≤ n.length → n.length ≤ 16 → 16 < k.length →
      lagrange_vartime fuel k n mb c0len c1len = .error .panicked) ∧
    (∀ (fuel mb c0len c1len : Nat) (k n : List Nat),
      8 ≤ n.length → n.length ≤ 16 → k.length ≤ 16 →
      c0len ≤ engineCoordWidth n.length → c1len ≤ engineCoordWidth n.length →
      lagrange_vartime fuel k n mb c0len c1len ≠ .error .unimplemented ∧
      lagrange_vartime fuel k n mb c0len c1len ≠ .error .panicked) := by
  refine ⟨?_, ?_, ?_⟩
  · intro fuel mb c0len c1len k n h
    rw [lagrange_vartime, if_pos]
    simp only [Bool.or_eq_true, decide_eq_true_eq]
    exact h
  · intro fuel mb c0len c1len k n h8 h16 hk
    rw [lagrange_vartime, if_neg, if_pos hk]
    simp only [Bool.or_eq_true, decide_eq_true_eq, not_or, not_lt]
    exact ⟨h8, h16⟩
  · intro fuel mb c0len c1len k n h8 h16 hkl hc0 hc1
    obtain ⟨m, hm⟩ : ∃ m, n.length = m := ⟨_, rfl⟩
    rw [hm] at h8 h16 hc0 hc1
    rw [lagrange_vartime, if_neg (by
        simp only [Bool.or_eq_true, decide_eq_true_eq, not_or, not_lt]
        omega),
      if_neg (by omega)]
    rw [hm]
    interval_cases m <;>
      exact ⟨copyOut_ne_unimplemented _ _ _,
        copyOut_engine_no_panic (by norm_num)
          (by simp only [List.length_take, List.length_append,
                List.length_replicate]; omega)
          (by simp only [List.length_take, List.length_append,
                List.length_replicate]; omega)
          (le_trans hc0 (by decide)) (le_trans hc1 (by decide))⟩

set_option maxRecDepth 100000 in
/-- Counterexample to C7's "every precondition violation fails loudly":
with `k = 5 ≥ n = 3` (8 limbs each, a violated value precondition) the
dispatch returns an ordinary result `([3, 0, 0, 0], [0, 0, 0, 0])` instead
of panicking. -/
theorem c7_counterexample :
    val [3, 0, 0, 0, 0, 0, 0, 0] ≤ val [5, 0, 0, 0, 0, 0, 0, 0] ∧
    (lagrange_vartime 40 [5, 0, 0, 0, 0, 0, 0, 0] [3, 0, 0, 0, 0, 0, 0, 0]
        254 4 4).toOption = some ([3, 0, 0, 0], [0, 0, 0, 0]) := by
  exact ⟨by decide, by decide⟩

/-- Witness for C7 at concrete inputs: a 3-limb `n` is rejected as
unimplemented, a 17-limb `k` panics, and a 16-limb input with width-8
output slices (the 512-bit engine's full coordinate width) produces
neither fault. -/
theorem c7_dispatch_faults_witness :
    lagrange_vartime 1 [] [1, 2, 3] 0 0 0 = .error .unimplemented ∧
    lagrange_vartime 1 (List.replicate 17 0) [1, 1, 1, 1, 1, 1, 1, 1] 0 0 0
      = .error .panicked ∧
    (lagrange_vartime 2 (9 :: List.replicate 15 0) (8 :: List.replicate 15 0)
        1 8 8 ≠ .error .unimplemented ∧
     lagrange_vartime 2 (9 :: List.replicate 15 0) (8 :: List.replicate 15 0)
        1 8 8 ≠ .error .panicked) := by
  refine ⟨?_, ?_, ?_⟩
  · exact c7_dispatch_faults.1 1 0 0 0 [] [1, 2, 3] (by decide)
  · exact c7_dispatch_faults.2.1 1 0 0 0 (List.replicate 17 0)
      [1, 1, 1, 1, 1, 1, 1, 1] (by decide) (by decide) (by decide)
  · exact c7_dispatch_faults.2.2 2 1 8 8 (9 :: List.replicate 15 0)
      (8 :: List.replicate 15 0) (by decide) (by decide) (by decide)
      (by decide) (by decide)
